import Mathlib

/-!
Verification of the Line 'Em Up adversarial search engine (lineEmUp.py /
skeleton-tictactoe.py) against its natural-language specification.

The definitions below are a shallow embedding of the Python source.  Cells are
the four characters used by the program ('.', 'X', 'O', '*'); a board is the
`current_state` list of lists; the line enumeration, terminal detection,
heuristics and the minimax / alphabeta searches mirror the control flow of the
corresponding Python methods.  Wall-clock time is modelled by an abstract
oracle (a predicate on the number of search calls made so far); floating-point
arithmetic of the Python heuristics is modelled exactly over the rationals.
Statistics fields (TurnStats, the average-recursion-depth component returned
by the searches) do not feed back into any score or move decision; they are
modelled only where a claim concerns them (the instrumented clock of
`minimaxT`).
-/

namespace LineEmUp

/-- A board cell: '.', 'X', 'O' or the block character '*'. -/
inductive Cell : Type
  | E : Cell   -- '.'
  | X : Cell
  | O : Cell
  | B : Cell   -- '*'
  deriving DecidableEq, Repr, Fintype

/-- `current_state`: a list of rows of cells (indexed `state[i][j]`). -/
abbrev Board := List (List Cell)

/-- `self.current_state[i][j]` (out-of-range reads default to '.'; the source
only indexes in range). -/
def cell (b : Board) (i j : ℕ) : Cell := (b.getD i []).getD j Cell.E

/-- `self.current_state[i][j] = c`. -/
def setCell (b : Board) (i j : ℕ) (c : Cell) : Board :=
  b.set i ((b.getD i []).set j c)

/-- Exchange the two player symbols, keeping '.' and '*' fixed. -/
def swapCell : Cell → Cell
  | Cell.X => Cell.O
  | Cell.O => Cell.X
  | c => c

/-- Apply `swapCell` to every cell of a board. -/
def swapBoard (b : Board) : Board := b.map (List.map swapCell)

/-- The result of `Game.is_end`: 'X', 'O' or '.' (a tie); `none` is "continue". -/
inductive Outcome : Type
  | XWin : Outcome
  | OWin : Outcome
  | Tie : Outcome
  deriving DecidableEq, Repr

/-- Exchange the two win verdicts, keeping a tie fixed. -/
def swapOutcome : Outcome → Outcome
  | Outcome.XWin => Outcome.OWin
  | Outcome.OWin => Outcome.XWin
  | Outcome.Tie => Outcome.Tie

/-- The board parameters used by the core: `self.n` and `self.s`. -/
structure GP : Type where
  n : ℕ
  s : ℕ
  deriving DecidableEq, Repr

/-- `self.max_diag = 2 * self.n - 1 - 2 * (self.s - 1)`. -/
def maxDiag (g : GP) : ℕ := 2 * g.n - 1 - 2 * (g.s - 1)

/-- `self.split_diag = int((self.max_diag - 1) / 2)`. -/
def splitDiag (g : GP) : ℕ := (maxDiag g - 1) / 2

/-- The diagonal-reading `while` loop of `read_all_lines`:
`while 0 <= x < self.n and 0 <= y < self.n: line.append(state[x][y]); x += 1; y += dy`.
`fuel` bounds the iteration count (`n` always suffices since `x` increases). -/
def walk (b : Board) (n : ℕ) (dy : ℤ) : ℕ → ℤ → ℤ → List Cell
  | 0, _, _ => []
  | fuel + 1, x, y =>
    if 0 ≤ x ∧ x < (n : ℤ) ∧ 0 ≤ y ∧ y < (n : ℤ) then
      cell b x.toNat y.toNat :: walk b n dy fuel (x + 1) (y + dy)
    else []

/-- Same walk, recording the coordinates instead of the contents. -/
def walkCoords (n : ℕ) (dy : ℤ) : ℕ → ℤ → ℤ → List (ℕ × ℕ)
  | 0, _, _ => []
  | fuel + 1, x, y =>
    if 0 ≤ x ∧ x < (n : ℤ) ∧ 0 ≤ y ∧ y < (n : ℤ) then
      (x.toNat, y.toNat) :: walkCoords n dy fuel (x + 1) (y + dy)
    else []

/-- `row` of `read_all_lines`: `[state[y][x] for y in range(n)]`. -/
def rowLine (g : GP) (b : Board) (x : ℕ) : List Cell :=
  (List.range g.n).map fun y => cell b y x

/-- `col` of `read_all_lines`: `[state[x][y] for y in range(n)]`. -/
def colLine (g : GP) (b : Board) (x : ℕ) : List Cell :=
  (List.range g.n).map fun y => cell b x y

/-- Coordinates of `rowLine`. -/
def rowCoords (n x : ℕ) : List (ℕ × ℕ) := (List.range n).map fun y => (y, x)

/-- Coordinates of `colLine`. -/
def colCoords (n x : ℕ) : List (ℕ × ℕ) := (List.range n).map fun y => (x, y)

/-- Start of the `d`-th main diagonal:
`if d < split_diag: x = (n - s) - d; y = 0 else: x = 0; y = d - split_diag`. -/
def mainDiagStart (g : GP) (d : ℕ) : ℤ × ℤ :=
  if d < splitDiag g then ((g.n : ℤ) - g.s - d, 0) else (0, (d : ℤ) - splitDiag g)

/-- Start of the `d`-th anti diagonal:
`if d <= split_diag: x = 0; y = (s - 1) + d else: x = d - split_diag; y = n - 1`. -/
def antiDiagStart (g : GP) (d : ℕ) : ℤ × ℤ :=
  if d ≤ splitDiag g then (0, (g.s : ℤ) - 1 + d) else ((d : ℤ) - splitDiag g, (g.n : ℤ) - 1)

/-- The main-diagonal lines of `read_all_lines` (walk direction `x += 1; y += 1`). -/
def mainDiagLines (g : GP) (b : Board) : List (List Cell) :=
  (List.range (maxDiag g)).map fun d =>
    walk b g.n 1 g.n (mainDiagStart g d).1 (mainDiagStart g d).2

/-- The anti-diagonal ("Second Diagonal") lines (walk direction `x += 1; y -= 1`). -/
def antiDiagLines (g : GP) (b : Board) : List (List Cell) :=
  (List.range (maxDiag g)).map fun d =>
    walk b g.n (-1) g.n (antiDiagStart g d).1 (antiDiagStart g d).2

/-- Coordinates of the main-diagonal lines. -/
def mainDiagCoords (g : GP) : List (List (ℕ × ℕ)) :=
  (List.range (maxDiag g)).map fun d =>
    walkCoords g.n 1 g.n (mainDiagStart g d).1 (mainDiagStart g d).2

/-- Coordinates of the anti-diagonal lines. -/
def antiDiagCoords (g : GP) : List (List (ℕ × ℕ)) :=
  (List.range (maxDiag g)).map fun d =>
    walkCoords g.n (-1) g.n (antiDiagStart g d).1 (antiDiagStart g d).2

/-- `Game.read_all_lines()` without a callback: the returned `lines` list, in
order (per `x`: row then column; then main diagonals; then anti diagonals). -/
def readAllLines (g : GP) (b : Board) : List (List Cell) :=
  ((List.range g.n).flatMap fun x => [rowLine g b x, colLine g b x])
    ++ mainDiagLines g b ++ antiDiagLines g b

/-- The pure geometry of `read_all_lines` (the specification's
`enumerateLines`): same lines, as coordinate lists.  It depends only on the
board parameters, not on contents. -/
def readAllLinesCoords (g : GP) : List (List (ℕ × ℕ)) :=
  ((List.range g.n).flatMap fun x => [rowCoords g.n x, colCoords g.n x])
    ++ mainDiagCoords g ++ antiDiagCoords g

/-- The order in which `read_all_lines` feeds lines to a callback: per `x` the
column is passed before the row; then main diagonals; then anti diagonals. -/
def scanLines (g : GP) (b : Board) : List (List Cell) :=
  ((List.range g.n).flatMap fun x => [colLine g b x, rowLine g b x])
    ++ mainDiagLines g b ++ antiDiagLines g b

/-- `pat.isPrefixOf l` on cell lists (string prefix test used by substring
containment). -/
def leadsWith : List Cell → List Cell → Bool
  | [], _ => true
  | _ :: _, [] => false
  | p :: ps, c :: cs => if p = c then leadsWith ps cs else false

/-- Python's substring containment `pat in ''.join(line)` on cell lists. -/
def containsRun (pat : List Cell) : List Cell → Bool
  | [] => pat.isEmpty
  | c :: cs => leadsWith pat (c :: cs) || containsRun pat cs

/-- The `check_win` callback of `is_end`: 'X' if `self.xs = 'X' * s` occurs in
the joined line, else 'O' if `self.os` occurs, else nothing. -/
def checkWin (s : ℕ) (line : List Cell) : Option Outcome :=
  if containsRun (List.replicate s Cell.X) line then some Outcome.XWin
  else if containsRun (List.replicate s Cell.O) line then some Outcome.OWin
  else none

/-- `Game.is_full`: no line read by `read_all_lines` contains '.'. -/
def isFull (g : GP) (b : Board) : Bool :=
  !((readAllLines g b).any fun line => line.any fun c => decide (c = Cell.E))

/-- The pure verdict of `Game.is_end` (a fresh scan of all lines, in callback
order, then the tie check): 'X', 'O', '.' as `Tie`, or `none` to continue. -/
def isEnd (g : GP) (b : Board) : Option Outcome :=
  match (scanLines g b).findSome? (checkWin g.s) with
  | some w => some w
  | none => if isFull g b then some Outcome.Tie else none

/-- Lookup in the `state_end` cache; the source keys by `str(current_state)`,
which is injective on boards, so the model keys by the board itself. -/
def cacheLookup (b : Board) : List (Board × Option Outcome) → Option (Option Outcome)
  | [] => none
  | (k, v) :: rest => if k = b then some v else cacheLookup b rest

/-- `Game.is_end` with its `state_end` memoization made explicit: on a hit the
cached verdict is returned and the cache unchanged; on a miss the fresh
verdict is computed, stored and returned.  (The `turn_stats` counters the
source also updates do not affect the verdict and are not modelled.) -/
def isEndCached (g : GP) (cache : List (Board × Option Outcome)) (b : Board) :
    Option Outcome × List (Board × Option Outcome) :=
  match cacheLookup b cache with
  | some r => (r, cache)
  | none => (isEnd g b, (b, isEnd g b) :: cache)

/-- The move generator of the search loops:
`for i in range(n): for j in range(n): if state[i][j] == '.'`, row-major. -/
def avail (g : GP) (b : Board) : List (ℕ × ℕ) :=
  (List.range g.n).flatMap fun i =>
    (List.range g.n).filterMap fun j =>
      if cell b i j = Cell.E then some (i, j) else none

/-- Number of empty cells seen by the search loop. -/
def countEmpty (g : GP) (b : Board) : ℕ := (avail g b).length

/-- `itertools.groupby`: maximal runs of equal consecutive cells with their
lengths. -/
def runsOf : List Cell → List (Cell × ℕ)
  | [] => []
  | c :: rest =>
    match runsOf rest with
    | (c', k) :: rs => if c = c' then (c, k + 1) :: rs else (c, 1) :: (c', k) :: rs
    | [] => [(c, 1)]

/-- The per-line contribution to `e1`'s integer score: the block-adjacency
bonuses (`'X*' in line or '*X' in line` adds 5; `'O*' in line or '*O' in line`
subtracts 5) plus `+10^count` per 'O' run and `-10^count` per 'X' run. -/
def lineScoreInt (line : List Cell) : ℤ :=
  (if containsRun [Cell.X, Cell.B] line || containsRun [Cell.B, Cell.X] line then 5 else 0)
    + (if containsRun [Cell.O, Cell.B] line || containsRun [Cell.B, Cell.O] line then -5 else 0)
    + ((runsOf line).map fun r =>
        match r.1 with
        | Cell.O => (10 : ℤ) ^ r.2
        | Cell.X => -((10 : ℤ) ^ r.2)
        | _ => 0).sum

/-- The content of `e1`'s `state_eval1` cache: the integer score summed over
all lines (the cache is keyed by board contents and transparent). -/
def e1Score (g : GP) (b : Board) : ℤ :=
  ((readAllLines g b).map lineScoreInt).sum

/-- `e1`'s depth adjustment: `if maximize is None: depth = 0
elif not maximize: depth = -depth`. -/
def e1Adj (maximize : Option Bool) (depth : ℤ) : ℤ :=
  match maximize with
  | none => 0
  | some true => depth
  | some false => -depth

/-- `Game.e1(maximize, depth)`: `clamp(score + depth) = (score + depth) / 10 ** s`
(Python float division, modelled exactly over ℚ). -/
def e1 (g : GP) (b : Board) (maximize : Option Bool) (depth : ℤ) : ℚ :=
  ((e1Score g b + e1Adj maximize depth : ℤ) : ℚ) / (10 : ℚ) ^ g.s

/-- One iteration of `e2`'s inner loop over a line, with `prev` the loop's
comparison value ('?' is `none`); the source never reassigns `prev` inside the
loop, so callers pass it through unchanged:
`if curr == prev and curr == 'X': score -= UNIT`
`if curr == prev and curr == 'O': score += UNIT`
`elif not (curr == prev): score += UNIT * BLOCK_WEIGHT` (BLOCK_WEIGHT = 5). -/
def e2Step (unit : ℚ) (prev : Option Cell) (score : ℚ) (curr : Cell) : ℚ :=
  let s1 := if prev = some curr ∧ curr = Cell.X then score - unit else score
  if prev = some curr ∧ curr = Cell.O then s1 + unit
  else if ¬(prev = some curr) then s1 + unit * 5
  else s1

/-- `e2`'s loop over one direction of a line (`prev` is never updated,
mirroring the source). -/
def e2Loop (unit : ℚ) (prev : Option Cell) : ℚ → List Cell → ℚ
  | score, [] => score
  | score, c :: rest => e2Loop unit prev (e2Step unit prev score c) rest

/-- `Game.e2()` of lineEmUp.py: `UNIT = 100 ** (-s)` (a float, modelled exactly
as `(100^s)⁻¹ : ℚ`); every line is scanned forward and then reversed, with
`prev = '?'` re-initialised before each scan. -/
def e2 (g : GP) (b : Board) : ℚ :=
  (readAllLines g b).foldl
    (fun score line => e2Loop ((100 : ℚ) ^ g.s)⁻¹ none
      (e2Loop ((100 : ℚ) ^ g.s)⁻¹ none score line) line.reverse) 0

/-- The heuristic handed to the search: the source's `self.eval(max, depth)`
closes over the game and active player, so the model passes an arbitrary
function of (current board, maximize flag, remaining depth). -/
abbrev Heur := Board → Bool → ℕ → ℚ

/-- Terminal scores of the searches: -1 win for 'X', 1 win for 'O', 0 tie. -/
def termScore : Outcome → ℚ
  | Outcome.XWin => -1
  | Outcome.OWin => 1
  | Outcome.Tie => 0

/-- `value = 2; if max: value = -2` — initial best, worse than the worst case. -/
def initVal (maxer : Bool) : ℚ := if maxer then -2 else 2

/-- The child-comparison step of both search loops:
`if v > value (max) / v < value (min): value = v; x = i; y = j`. -/
def mmStep (maxer : Bool) (acc : ℚ × Option (ℕ × ℕ)) (ij : ℕ × ℕ) (v : ℚ) :
    ℚ × Option (ℕ × ℕ) :=
  if maxer then (if acc.1 < v then (v, some ij) else acc)
  else (if v < acc.1 then (v, some ij) else acc)

/-- The `minimax` children loop: fold `mmStep` over the available cells with
`f` scoring each child position. -/
def searchFold (f : ℕ × ℕ → ℚ) (maxer : Bool) :
    List (ℕ × ℕ) → ℚ × Option (ℕ × ℕ) → ℚ × Option (ℕ × ℕ)
  | [], acc => acc
  | ij :: rest, acc => searchFold f maxer rest (mmStep maxer acc ij (f ij))

/-- The `alphabeta` children loop: after each child, on a maximizing node
`if value >= beta: return value, x, y` then `if value > alpha: alpha = value`;
symmetrically on a minimizing node.  The current window is passed to each
child. -/
def abFold (f : ℕ × ℕ → ℚ → ℚ → ℚ) (maxer : Bool) :
    List (ℕ × ℕ) → ℚ → ℚ → ℚ × Option (ℕ × ℕ) → ℚ × Option (ℕ × ℕ)
  | [], _, _, acc => acc
  | ij :: rest, alpha, beta, acc =>
    let acc' := mmStep maxer acc ij (f ij alpha beta)
    if maxer then
      if beta ≤ acc'.1 then acc'
      else abFold f maxer rest (if alpha < acc'.1 then acc'.1 else alpha) beta acc'
    else
      if acc'.1 ≤ alpha then acc'
      else abFold f maxer rest alpha (if acc'.1 < beta then acc'.1 else beta) acc'

/-- `Game.minimax(max, depth)` with the wall-clock condition false (the
"no time cutoff" scenario) and integer depth: terminal verdicts first, then
the `depth <= 0` heuristic cutoff, then the row-major children loop placing
'O' (maximizing) or 'X' (minimizing) and recursing at `depth - 1`.  Only the
(score, move) pair is returned; the fourth component of the Python return (an
average-recursion-depth statistic) influences neither. -/
def minimax (hev : Heur) (g : GP) : ℕ → Board → Bool → ℚ × Option (ℕ × ℕ)
  | 0, b, maxer =>
    (match isEnd g b with
     | some r => (termScore r, none)
     | none => (hev b maxer 0, none))
  | d + 1, b, maxer =>
    (match isEnd g b with
     | some r => (termScore r, none)
     | none =>
       searchFold
         (fun ij =>
           (minimax hev g d (setCell b ij.1 ij.2 (if maxer then Cell.O else Cell.X))
             (!maxer)).1)
         maxer (avail g b) (initVal maxer, none))

/-- `Game.alphabeta(alpha, beta, max, depth)` under the same modelling
conventions as `minimax`. -/
def alphabeta (hev : Heur) (g : GP) : ℕ → Board → ℚ → ℚ → Bool → ℚ × Option (ℕ × ℕ)
  | 0, b, _, _, maxer =>
    (match isEnd g b with
     | some r => (termScore r, none)
     | none => (hev b maxer 0, none))
  | d + 1, b, alpha, beta, maxer =>
    (match isEnd g b with
     | some r => (termScore r, none)
     | none =>
       abFold
         (fun ij a2 b2 =>
           (alphabeta hev g d (setCell b ij.1 ij.2 (if maxer then Cell.O else Cell.X))
             a2 b2 (!maxer)).1)
         maxer (avail g b) alpha beta (initVal maxer, none))

/-- The children loop of `minimaxT`, threading the call counter through the
recursive calls in source order. -/
def searchFoldT (f : ℕ × ℕ → ℕ → (ℚ × Option (ℕ × ℕ)) × ℕ) (maxer : Bool) :
    List (ℕ × ℕ) → (ℚ × Option (ℕ × ℕ)) → ℕ → (ℚ × Option (ℕ × ℕ)) × ℕ
  | [], acc, clock => (acc, clock)
  | ij :: rest, acc, clock =>
    let r := f ij clock
    searchFoldT f maxer rest (mmStep maxer acc ij r.1.1) r.2

/-- `Game.minimax` with the wall-clock check made observable: `clock` counts
the recursive `minimax` calls entered so far and the oracle `tu` tells whether
`time.time() - search_start > t - leeway` holds at that point.  Each call
increments the clock on entry; the output clock is the total number of calls
in the subtree. -/
def minimaxT (tu : ℕ → Bool) (hev : Heur) (g : GP) :
    ℕ → Board → Bool → ℕ → (ℚ × Option (ℕ × ℕ)) × ℕ
  | 0, b, maxer, clock =>
    (match isEnd g b with
     | some r => ((termScore r, none), clock + 1)
     | none => ((hev b maxer 0, none), clock + 1))
  | d + 1, b, maxer, clock =>
    (match isEnd g b with
     | some r => ((termScore r, none), clock + 1)
     | none =>
       if tu (clock + 1) then ((hev b maxer (d + 1), none), clock + 1)
       else
         searchFoldT
           (fun ij ck =>
             minimaxT tu hev g d (setCell b ij.1 ij.2 (if maxer then Cell.O else Cell.X))
               (!maxer) ck)
           maxer (avail g b) (initVal maxer, none) (clock + 1))

/-- `Game.validate()`: returns the message of the exception raised (if any)
together with the final value of `self.b` (which the method overwrites with
`len(self.blocs)` whenever the declared count disagrees). -/
def validate (n : ℕ) (bDeclared : ℕ) (blocs : List (ℕ × ℕ)) (s : ℕ) :
    Option String × ℕ :=
  if 10 < n ∨ n < 3 then (some "Invalid board size", bDeclared)
  else
    let b := if bDeclared ≠ blocs.length then blocs.length else bDeclared
    if 2 * n < b then (some "Too many blocs", b)
    else if n < s then (some "Invalid size of winning line", b)
    else (none, b)

/-- The 3x3, winLength 3 configuration. -/
def g3 : GP := ⟨3, 3⟩

/-- A 6x6, winLength 3 configuration. -/
def g6 : GP := ⟨6, 3⟩

/-- A 10x10, winLength 3 configuration. -/
def g10 : GP := ⟨10, 3⟩

/-- The empty 3x3 board with no blocked cells. -/
def empty3 : Board := List.replicate 3 (List.replicate 3 Cell.E)

/-- Positions of a 3x3, winLength 3, no-blocks game reachable from the empty
board: 'X' moves first, players alternate, and moves are made only on an empty
cell of a position the terminal detector has not yet ended.  The flag records
whose turn it is ('O', the maximizing player, when `true`) — exactly the
positions on which `play` and the two searches invoke each other. -/
inductive Reachable : Board → Bool → Prop
  | start : Reachable empty3 false
  | stepX {b : Board} {i j : ℕ} : Reachable b false → isEnd g3 b = none →
      cell b i j = Cell.E → i < 3 → j < 3 → Reachable (setCell b i j Cell.X) true
  | stepO {b : Board} {i j : ℕ} : Reachable b true → isEnd g3 b = none →
      cell b i j = Cell.E → i < 3 → j < 3 → Reachable (setCell b i j Cell.O) false

/-- The time oracle of the C3 counterexample: the deadline is crossed at the
second search call. -/
def tuAt2 : ℕ → Bool := fun t => decide (2 ≤ t)

/-- The trivial heuristic used by concrete runs. -/
def hev0 : Heur := fun _ _ _ => 0

/-! ### Generic list helpers -/

theorem getD_length_le {α : Type} (d : α) : ∀ (l : List α) (i : ℕ), l.length ≤ i →
    l.getD i d = d := by
  intro l
  induction l with
  | nil => intro i _; simp
  | cons a t ih =>
    intro i hi
    cases i with
    | zero => simp at hi
    | succ k => simpa using ih k (by simpa using hi)

theorem getD_set_same {α : Type} (a d : α) : ∀ (l : List α) (i : ℕ), i < l.length →
    (l.set i a).getD i d = a := by
  intro l
  induction l with
  | nil => intro i hi; simp at hi
  | cons x t ih =>
    intro i hi
    cases i with
    | zero => simp
    | succ k => simpa using ih k (by simpa using hi)

theorem getD_set_ne {α : Type} (a d : α) : ∀ (l : List α) (i i' : ℕ), i ≠ i' →
    (l.set i a).getD i' d = l.getD i' d := by
  intro l
  induction l with
  | nil => intro i i' _; simp
  | cons x t ih =>
    intro i i' hne
    cases i with
    | zero =>
      cases i' with
      | zero => exact absurd rfl hne
      | succ k => simp
    | succ m =>
      cases i' with
      | zero => simp
      | succ k => simpa using ih m k (fun h => hne (by omega))

theorem set_getD_self {α : Type} (d : α) : ∀ (l : List α) (i : ℕ),
    l.set i (l.getD i d) = l := by
  intro l
  induction l with
  | nil => intro i; simp
  | cons x t ih =>
    intro i
    cases i with
    | zero => simp
    | succ k => simpa using ih k

theorem mapOfFlatMap {α β γ : Type} (g : β → γ) (f : α → List β) :
    ∀ l : List α, (l.flatMap f).map g = l.flatMap fun a => (f a).map g := by
  intro l
  induction l with
  | nil => simp
  | cons a t ih => simp [List.flatMap_cons, ih]

/-! ### Bridging the line enumeration with its coordinate geometry -/

theorem getD_ofMap {α β : Type} (f : α → β) :
    ∀ (l : List α) (i : ℕ) (d : α), (l.map f).getD i (f d) = f (l.getD i d) := by
  intro l
  induction l with
  | nil => intro i d; simp
  | cons a t ih =>
    intro i d
    cases i with
    | zero => simp
    | succ k => simpa using ih k d

theorem walk_eq_mapCoords (b : Board) (n : ℕ) (dy : ℤ) :
    ∀ (fuel : ℕ) (x y : ℤ), walk b n dy fuel x y =
      (walkCoords n dy fuel x y).map fun p => cell b p.1 p.2 := by
  intro fuel
  induction fuel with
  | zero => intro x y; rfl
  | succ k ih =>
    intro x y
    rw [walk, walkCoords]
    by_cases h : 0 ≤ x ∧ x < (n : ℤ) ∧ 0 ≤ y ∧ y < (n : ℤ)
    · rw [if_pos h, if_pos h, List.map_cons, ih]
    · rw [if_neg h, if_neg h]
      rfl

theorem flatMapCongr {α β : Type} {f f' : α → List β} :
    ∀ l : List α, (∀ a ∈ l, f a = f' a) → l.flatMap f = l.flatMap f' := by
  intro l
  induction l with
  | nil => intro _; rfl
  | cons a t ih =>
    intro h
    rw [List.flatMap_cons, List.flatMap_cons, h a (by simp), ih fun x hx => h x (by simp [hx])]

theorem rowLine_eq_coords (g : GP) (b : Board) (x : ℕ) :
    rowLine g b x = (rowCoords g.n x).map fun p => cell b p.1 p.2 := by
  unfold rowLine rowCoords
  rw [List.map_map]
  rfl

theorem colLine_eq_coords (g : GP) (b : Board) (x : ℕ) :
    colLine g b x = (colCoords g.n x).map fun p => cell b p.1 p.2 := by
  unfold colLine colCoords
  rw [List.map_map]
  rfl

theorem mainDiagLines_eq_coords (g : GP) (b : Board) :
    mainDiagLines g b = (mainDiagCoords g).map (List.map fun p => cell b p.1 p.2) := by
  unfold mainDiagLines mainDiagCoords
  rw [List.map_map]
  exact List.map_congr_left fun d _ => walk_eq_mapCoords b g.n 1 g.n _ _

theorem antiDiagLines_eq_coords (g : GP) (b : Board) :
    antiDiagLines g b = (antiDiagCoords g).map (List.map fun p => cell b p.1 p.2) := by
  unfold antiDiagLines antiDiagCoords
  rw [List.map_map]
  exact List.map_congr_left fun d _ => walk_eq_mapCoords b g.n (-1) g.n _ _

theorem readAllLines_eq_coords (g : GP) (b : Board) :
    readAllLines g b = (readAllLinesCoords g).map (List.map fun p => cell b p.1 p.2) := by
  unfold readAllLines readAllLinesCoords
  rw [List.map_append, List.map_append, mapOfFlatMap, mainDiagLines_eq_coords,
    antiDiagLines_eq_coords]
  congr 1
  congr 1
  exact flatMapCongr _ fun x _ => by
    simp only [List.map_cons, List.map_nil, rowLine_eq_coords, colLine_eq_coords]

/-- The geometry of `scanLines` (callback order). -/
def scanCoords (g : GP) : List (List (ℕ × ℕ)) :=
  ((List.range g.n).flatMap fun x => [colCoords g.n x, rowCoords g.n x])
    ++ mainDiagCoords g ++ antiDiagCoords g

theorem scanLines_eq_coords (g : GP) (b : Board) :
    scanLines g b = (scanCoords g).map (List.map fun p => cell b p.1 p.2) := by
  unfold scanLines scanCoords
  rw [List.map_append, List.map_append, mapOfFlatMap, mainDiagLines_eq_coords,
    antiDiagLines_eq_coords]
  congr 1
  congr 1
  exact flatMapCongr _ fun x _ => by
    simp only [List.map_cons, List.map_nil, rowLine_eq_coords, colLine_eq_coords]

/-- Every member of `readAllLines` is a member of `scanLines` and conversely:
the two orders enumerate the same lines. -/
theorem mem_scanLines_iff (g : GP) (b : Board) (l : List Cell) :
    l ∈ scanLines g b ↔ l ∈ readAllLines g b := by
  unfold scanLines readAllLines
  simp only [List.mem_append, List.mem_flatMap, List.mem_cons, List.not_mem_nil,
    or_false]
  constructor
  · rintro ((⟨x, hx, h⟩ | h) | h)
    · exact Or.inl (Or.inl ⟨x, hx, Or.symm h⟩)
    · exact Or.inl (Or.inr h)
    · exact Or.inr h
  · rintro ((⟨x, hx, h⟩ | h) | h)
    · exact Or.inl (Or.inl ⟨x, hx, Or.symm h⟩)
    · exact Or.inl (Or.inr h)
    · exact Or.inr h

theorem walkCoords_inRange (n : ℕ) (dy : ℤ) :
    ∀ (fuel : ℕ) (x y : ℤ), ∀ p ∈ walkCoords n dy fuel x y, p.1 < n ∧ p.2 < n := by
  intro fuel
  induction fuel with
  | zero => intro x y p hp; simp [walkCoords] at hp
  | succ k ih =>
    intro x y p hp
    rw [walkCoords] at hp
    by_cases h : 0 ≤ x ∧ x < (n : ℤ) ∧ 0 ≤ y ∧ y < (n : ℤ)
    · rw [if_pos h] at hp
      rcases List.mem_cons.1 hp with h1 | h1
      · subst h1
        exact ⟨by omega, by omega⟩
      · exact ih _ _ p h1
    · rw [if_neg h] at hp
      simp at hp

theorem coords_inRange (g : GP) :
    ∀ line ∈ readAllLinesCoords g, ∀ p ∈ line, p.1 < g.n ∧ p.2 < g.n := by
  intro line hline p hp
  unfold readAllLinesCoords at hline
  rcases List.mem_append.1 hline with h | h
  · rcases List.mem_append.1 h with h1 | h1
    · rcases List.mem_flatMap.1 h1 with ⟨x, hx, hmem⟩
      have hxn : x < g.n := List.mem_range.1 hx
      rcases List.mem_cons.1 hmem with h2 | h2
      · subst h2
        unfold rowCoords at hp
        rcases List.mem_map.1 hp with ⟨y, hy, hyp⟩
        subst hyp
        exact ⟨List.mem_range.1 hy, hxn⟩
      · rcases List.mem_cons.1 h2 with h3 | h3
        · subst h3
          unfold colCoords at hp
          rcases List.mem_map.1 hp with ⟨y, hy, hyp⟩
          subst hyp
          exact ⟨hxn, List.mem_range.1 hy⟩
        · simp at h3
    · unfold mainDiagCoords at h1
      rcases List.mem_map.1 h1 with ⟨d, _, hd⟩
      subst hd
      exact walkCoords_inRange g.n 1 g.n _ _ p hp
  · unfold antiDiagCoords at h
    rcases List.mem_map.1 h with ⟨d, _, hd⟩
    subst hd
    exact walkCoords_inRange g.n (-1) g.n _ _ p hp

theorem mem_avail (g : GP) (b : Board) (i j : ℕ) :
    (i, j) ∈ avail g b ↔ i < g.n ∧ j < g.n ∧ cell b i j = Cell.E := by
  unfold avail
  simp only [List.mem_flatMap, List.mem_filterMap, List.mem_range]
  constructor
  · rintro ⟨i', hi', j', hj', hif⟩
    by_cases h : cell b i' j' = Cell.E
    · rw [if_pos h] at hif
      obtain ⟨rfl, rfl⟩ : i' = i ∧ j' = j := by
        constructor <;> · injection hif with h'; simp [Prod.ext_iff] at h'; omega
      exact ⟨hi', hj', h⟩
    · rw [if_neg h] at hif
      exact Option.noConfusion hif
  · rintro ⟨hi, hj, hc⟩
    exact ⟨i, hi, j, hj, by rw [if_pos hc]⟩

theorem isEnd_none_isFull_false {g : GP} {b : Board} (h : isEnd g b = none) :
    isFull g b = false := by
  unfold isEnd at h
  cases hfs : (scanLines g b).findSome? (checkWin g.s) with
  | some w => rw [hfs] at h; exact Option.noConfusion h
  | none =>
    rw [hfs] at h
    by_cases hful : isFull g b
    · rw [if_pos hful] at h
      exact Option.noConfusion h
    · simpa using hful

theorem isFull_false_has_empty {g : GP} {b : Board} (h : isFull g b = false) :
    ∃ p : ℕ × ℕ, p.1 < g.n ∧ p.2 < g.n ∧ cell b p.1 p.2 = Cell.E := by
  unfold isFull at h
  simp only [Bool.not_eq_false', List.any_eq_true, decide_eq_true_eq] at h
  rcases h with ⟨line, hline, c, hc, hce⟩
  rw [readAllLines_eq_coords] at hline
  rcases List.mem_map.1 hline with ⟨cl, hcl, hmap⟩
  subst hmap
  rcases List.mem_map.1 hc with ⟨p, hp, hpc⟩
  have := coords_inRange g cl hcl p hp
  exact ⟨p, this.1, this.2, by rw [hpc]; exact hce⟩

theorem isEnd_none_avail_ne_nil {g : GP} {b : Board} (h : isEnd g b = none) :
    avail g b ≠ [] := by
  rcases isFull_false_has_empty (isEnd_none_isFull_false h) with ⟨p, h1, h2, h3⟩
  intro hnil
  have : (p.1, p.2) ∈ avail g b := (mem_avail g b p.1 p.2).2 ⟨h1, h2, h3⟩
  rw [hnil] at this
  simp at this

/-! ### C2: line enumeration geometry -/

/-- The main-diagonal offset `y - x` of a diagonal line, read off its first
coordinate. -/
def mainOffset (line : List (ℕ × ℕ)) : ℤ :=
  ((line.headD (0, 0)).2 : ℤ) - ((line.headD (0, 0)).1 : ℤ)

/-- The anti-diagonal offset `x + y` of a diagonal line, read off its first
coordinate. -/
def antiOffset (line : List (ℕ × ℕ)) : ℤ :=
  ((line.headD (0, 0)).1 : ℤ) + ((line.headD (0, 0)).2 : ℤ)

/-- C2: for every valid configuration (3 ≤ n ≤ 10, 3 ≤ s ≤ n) the line
enumeration produces only lines of length ≥ s; each diagonal family has
exactly `2*n - 1 - 2*(s-1)` lines; and the diagonal offsets produced are
pairwise distinct and are exactly the qualifying ones (main offsets `y - x`
in `[-(n-s), n-s]`, anti offsets `x + y` in `[s-1, 2n-1-s]`, i.e. those whose
diagonal holds at least `s` cells). -/
theorem c2_line_enumeration :
    ∀ n ∈ Finset.Icc 3 10, ∀ s ∈ Finset.Icc 3 n,
      (∀ line ∈ readAllLinesCoords ⟨n, s⟩, s ≤ line.length)
      ∧ (mainDiagCoords ⟨n, s⟩).length = 2 * n - 1 - 2 * (s - 1)
      ∧ (antiDiagCoords ⟨n, s⟩).length = 2 * n - 1 - 2 * (s - 1)
      ∧ ((mainDiagCoords ⟨n, s⟩).map mainOffset).Nodup
      ∧ ((mainDiagCoords ⟨n, s⟩).map mainOffset).toFinset
          = Finset.Icc (-((n : ℤ) - s)) ((n : ℤ) - s)
      ∧ ((antiDiagCoords ⟨n, s⟩).map antiOffset).Nodup
      ∧ ((antiDiagCoords ⟨n, s⟩).map antiOffset).toFinset
          = Finset.Icc ((s : ℤ) - 1) (2 * (n : ℤ) - 1 - s) := by
  decide

/-- Witness for C2 at the 3x3, winLength 3 configuration. -/
theorem c2_witness :
    (3 ∈ Finset.Icc 3 10 ∧ 3 ∈ Finset.Icc 3 3)
    ∧ (∀ line ∈ readAllLinesCoords ⟨3, 3⟩, 3 ≤ line.length)
    ∧ (mainDiagCoords ⟨3, 3⟩).length = 2 * 3 - 1 - 2 * (3 - 1) :=
  ⟨⟨by decide, by decide⟩,
   (c2_line_enumeration 3 (by decide) 3 (by decide)).1,
   (c2_line_enumeration 3 (by decide) 3 (by decide)).2.1⟩

/-! ### C7: symbol-swap symmetry of the terminal detector -/

theorem swapCell_inj : ∀ a b : Cell, swapCell a = swapCell b ↔ a = b := by decide

theorem cell_swap (b : Board) (i j : ℕ) :
    cell (swapBoard b) i j = swapCell (cell b i j) := by
  unfold cell swapBoard
  have h1 : (b.map (List.map swapCell)).getD i [] = (b.getD i []).map swapCell :=
    getD_ofMap (List.map swapCell) b i []
  rw [h1]
  exact getD_ofMap swapCell (b.getD i []) j Cell.E

theorem scanLines_swap (g : GP) (b : Board) :
    scanLines g (swapBoard b) = (scanLines g b).map (List.map swapCell) := by
  rw [scanLines_eq_coords, scanLines_eq_coords, List.map_map]
  apply List.map_congr_left
  intro cl _
  simp only [Function.comp_apply, List.map_map]
  apply List.map_congr_left
  intro p _
  exact cell_swap b p.1 p.2

theorem readAllLines_swap (g : GP) (b : Board) :
    readAllLines g (swapBoard b) = (readAllLines g b).map (List.map swapCell) := by
  rw [readAllLines_eq_coords, readAllLines_eq_coords, List.map_map]
  apply List.map_congr_left
  intro cl _
  simp only [Function.comp_apply, List.map_map]
  apply List.map_congr_left
  intro p _
  exact cell_swap b p.1 p.2

theorem anyCongr {α : Type} {p q : α → Bool} :
    ∀ l : List α, (∀ x ∈ l, p x = q x) → l.any p = l.any q := by
  intro l
  induction l with
  | nil => intro _; rfl
  | cons a t ih =>
    intro h
    simp only [List.any_cons]
    rw [h a (by simp), ih fun x hx => h x (by simp [hx])]

theorem anyE_swap : ∀ l : List Cell,
    ((l.map swapCell).any fun c => decide (c = Cell.E))
      = (l.any fun c => decide (c = Cell.E)) := by
  intro l
  induction l with
  | nil => rfl
  | cons c t ih => cases c <;> simp [swapCell, ih]

theorem isFull_swap (g : GP) (b : Board) : isFull g (swapBoard b) = isFull g b := by
  unfold isFull
  rw [readAllLines_swap]
  congr 1
  rw [List.any_map]
  exact anyCongr _ fun line _ => anyE_swap line

theorem leadsWith_swap : ∀ pat l : List Cell,
    leadsWith (pat.map swapCell) (l.map swapCell) = leadsWith pat l := by
  intro pat
  induction pat with
  | nil => intro l; cases l <;> rfl
  | cons p ps ih =>
    intro l
    cases l with
    | nil => rfl
    | cons c cs =>
      simp only [List.map_cons, leadsWith]
      by_cases h : p = c
      · rw [if_pos h, if_pos (by rw [h])]
        exact ih cs
      · rw [if_neg h, if_neg fun hc => h ((swapCell_inj p c).1 hc)]

theorem containsRun_swap (pat : List Cell) : ∀ l : List Cell,
    containsRun (pat.map swapCell) (l.map swapCell) = containsRun pat l := by
  intro l
  induction l with
  | nil =>
    show (pat.map swapCell).isEmpty = pat.isEmpty
    cases pat <;> rfl
  | cons c cs ih =>
    simp only [List.map_cons, containsRun]
    rw [ih, ← List.map_cons swapCell c cs, leadsWith_swap]

theorem checkWin_swapLine {s : ℕ} {line : List Cell}
    (hnb : ¬(containsRun (List.replicate s Cell.X) line = true
              ∧ containsRun (List.replicate s Cell.O) line = true)) :
    checkWin s (line.map swapCell) = (checkWin s line).map swapOutcome := by
  have hrX : (List.replicate s Cell.X) = (List.replicate s Cell.O).map swapCell := by
    rw [List.map_replicate]
    rfl
  have hrO : (List.replicate s Cell.O) = (List.replicate s Cell.X).map swapCell := by
    rw [List.map_replicate]
    rfl
  have hx : containsRun (List.replicate s Cell.X) (line.map swapCell)
      = containsRun (List.replicate s Cell.O) line := by
    rw [hrX, containsRun_swap]
  have hy : containsRun (List.replicate s Cell.O) (line.map swapCell)
      = containsRun (List.replicate s Cell.X) line := by
    rw [hrO, containsRun_swap]
  unfold checkWin
  rw [hx, hy]
  by_cases ho : containsRun (List.replicate s Cell.O) line = true
  · by_cases hxx : containsRun (List.replicate s Cell.X) line = true
    · exact absurd ⟨hxx, ho⟩ hnb
    · simp [ho, hxx, swapOutcome]
  · by_cases hxx : containsRun (List.replicate s Cell.X) line = true
    · simp [ho, hxx, swapOutcome]
    · simp [ho, hxx]

theorem findSome?_swapLines (s : ℕ) :
    ∀ lines : List (List Cell),
      (∀ l ∈ lines, ¬(containsRun (List.replicate s Cell.X) l = true
          ∧ containsRun (List.replicate s Cell.O) l = true)) →
      (lines.map (List.map swapCell)).findSome? (checkWin s)
        = (lines.findSome? (checkWin s)).map swapOutcome := by
  intro lines
  induction lines with
  | nil => intro _; rfl
  | cons l rest ih =>
    intro h
    rw [List.map_cons, List.findSome?_cons, List.findSome?_cons,
      checkWin_swapLine (h l (by simp))]
    cases checkWin s l with
    | some w => rfl
    | none => exact ih fun x hx => h x (by simp [hx])

/-- C7 amended: the terminal detector is symmetric under symbol exchange for
every board none of whose enumerated lines contains an 'X' winning run and an
'O' winning run simultaneously (in particular for every board with
`n ≤ 2*s - 1`, where a line is too short to hold both): swapping all symbols
swaps the win verdicts and fixes tie/ongoing.  When a single line holds both
runs the detector reports 'X' for both the board and its swap, because
`check_win` tests the 'X' substring first (see the counterexample). -/
theorem c7_swap_symmetric (g : GP) (b : Board)
    (H : ∀ l ∈ scanLines g b, ¬(containsRun (List.replicate g.s Cell.X) l = true
          ∧ containsRun (List.replicate g.s Cell.O) l = true)) :
    isEnd g (swapBoard b) = (isEnd g b).map swapOutcome := by
  unfold isEnd
  rw [scanLines_swap, findSome?_swapLines g.s _ H]
  cases (scanLines g b).findSome? (checkWin g.s) with
  | some w => rfl
  | none =>
    simp only [Option.map_none']
    rw [isFull_swap]
    by_cases hf : isFull g b <;> simp [hf, swapOutcome]

/-- The 6x6 board whose first stored row is X X X O O O (all other cells
empty). -/
def B6 : Board :=
  [Cell.X, Cell.X, Cell.X, Cell.O, Cell.O, Cell.O] ::
    List.replicate 5 (List.replicate 6 Cell.E)

/-- C7 counterexample: on `B6` (6x6, winLength 3) a single line contains both
an XXX run and an OOO run.  The claim demands that swapping the symbols turn
the win-for-X verdict into win-for-O; instead `is_end` answers win-for-X for
the swapped board as well, because the 'X' substring is tested first inside
`check_win`. -/
theorem c7_counterexample :
    isEnd g6 B6 = some Outcome.XWin
    ∧ isEnd g6 (swapBoard B6) = some Outcome.XWin
    ∧ swapOutcome Outcome.XWin = Outcome.OWin := by
  refine ⟨by decide, by decide, by decide⟩

/-- Witness for C7's amended theorem: a 3x3 board with a won X row; its lines
(length 3) can never hold both winning runs. -/
theorem c7_witness :
    isEnd g3 (swapBoard [[Cell.X, Cell.X, Cell.X],
        [Cell.O, Cell.O, Cell.E], [Cell.E, Cell.E, Cell.E]])
      = (isEnd g3 [[Cell.X, Cell.X, Cell.X],
        [Cell.O, Cell.O, Cell.E], [Cell.E, Cell.E, Cell.E]]).map swapOutcome :=
  c7_swap_symmetric g3 _ (by decide)

/-! ### C5: heuristic score ranges -/

/-- Total number of cells over all enumerated lines — geometry only. -/
def totalLen (g : GP) : ℕ := ((readAllLinesCoords g).map List.length).sum

theorem e2Step_none (u sc : ℚ) (c : Cell) : e2Step u none sc c = sc + u * 5 := by
  unfold e2Step
  simp

theorem e2Loop_none (u : ℚ) : ∀ (l : List Cell) (sc : ℚ),
    e2Loop u none sc l = sc + u * 5 * l.length := by
  intro l
  induction l with
  | nil => intro sc; simp [e2Loop]
  | cons c t ih =>
    intro sc
    rw [e2Loop, e2Step_none, ih]
    simp only [List.length_cons]
    push_cast
    ring

theorem e2Fold (u : ℚ) : ∀ (L : List (List Cell)) (sc : ℚ),
    L.foldl (fun score line => e2Loop u none (e2Loop u none score line) line.reverse) sc
      = sc + u * 10 * (L.map fun l => (l.length : ℚ)).sum := by
  intro L
  induction L with
  | nil => intro sc; simp
  | cons l rest ih =>
    intro sc
    rw [List.foldl_cons, ih, e2Loop_none, e2Loop_none, List.length_reverse]
    simp only [List.map_cons, List.sum_cons]
    ring

theorem lineLens_eq (g : GP) (b : Board) :
    ((readAllLines g b).map fun l => (l.length : ℚ)).sum = (totalLen g : ℚ) := by
  rw [readAllLines_eq_coords, List.map_map]
  unfold totalLen
  rw [Nat.cast_list_sum, List.map_map]
  apply congrArg
  apply List.map_congr_left
  intro cl _
  simp [Function.comp, List.length_map]

theorem e2_eq_totalLen (g : GP) (b : Board) :
    e2 g b = ((100 : ℚ) ^ g.s)⁻¹ * 10 * (totalLen g : ℚ) := by
  unfold e2
  rw [e2Fold, lineLens_eq, zero_add]

theorem totalLen_bound :
    ∀ n ∈ Finset.Icc 3 10, ∀ s ∈ Finset.Icc 3 n,
      0 < totalLen ⟨n, s⟩ ∧ 10 * totalLen ⟨n, s⟩ < 100 ^ s := by
  decide

theorem lineScore3_bound :
    ∀ a b c : Cell, checkWin 3 [a, b, c] = none →
      -105 ≤ lineScoreInt [a, b, c] ∧ lineScoreInt [a, b, c] ≤ 105 := by
  decide

theorem isEnd_none_checkWin {g : GP} {b : Board} (h : isEnd g b = none) :
    ∀ l ∈ readAllLines g b, checkWin g.s l = none := by
  intro l hl
  unfold isEnd at h
  cases hfs : (scanLines g b).findSome? (checkWin g.s) with
  | some w => rw [hfs] at h; exact Option.noConfusion h
  | none =>
    exact List.findSome?_eq_none_iff.1 hfs l ((mem_scanLines_iff g b l).2 hl)

theorem sumBound (c : ℤ) (hc : 0 ≤ c) : ∀ L : List ℤ, (∀ x ∈ L, -c ≤ x ∧ x ≤ c) →
    -(c * L.length) ≤ L.sum ∧ L.sum ≤ c * L.length := by
  intro L
  induction L with
  | nil => intro _; simp
  | cons x t ih =>
    intro h
    have hx := h x (by simp)
    have ht := ih fun y hy => h y (by simp [hy])
    simp only [List.sum_cons, List.length_cons]
    push_cast
    constructor <;> nlinarith [ht.1, ht.2, hx.1, hx.2]

theorem g3_line_len (b : Board) : ∀ l ∈ readAllLines g3 b, l.length = 3 := by
  intro l hl
  rw [readAllLines_eq_coords] at hl
  rcases List.mem_map.1 hl with ⟨cl, hcl, hmap⟩
  subst hmap
  rw [List.length_map]
  have hlen : ∀ cl ∈ readAllLinesCoords g3, cl.length = 3 := by decide
  exact hlen cl hcl

theorem g3_lines_count (b : Board) : (readAllLines g3 b).length = 8 := by
  rw [readAllLines_eq_coords, List.length_map]
  decide

theorem e1Score_g3_bound {b : Board} (h : isEnd g3 b = none) :
    -840 ≤ e1Score g3 b ∧ e1Score g3 b ≤ 840 := by
  unfold e1Score
  have hb : ∀ x ∈ (readAllLines g3 b).map lineScoreInt, -105 ≤ x ∧ x ≤ 105 := by
    intro x hx
    rcases List.mem_map.1 hx with ⟨l, hl, hmap⟩
    subst hmap
    have h3 := g3_line_len b l hl
    rcases List.length_eq_three.1 h3 with ⟨a, c, d, rfl⟩
    exact lineScore3_bound a c d (isEnd_none_checkWin h _ hl)
  have := sumBound 105 (by norm_num) _ hb
  rw [List.length_map, g3_lines_count] at this
  constructor <;> [exact le_trans (by norm_num) this.1; exact le_trans this.2 (by norm_num)]

/-- C5 amended: each heuristic is bounded, but only `e2` stays strictly inside
(-1, 1) on every board of every valid configuration; `e1` does not in general
(see the counterexample), though on the 3x3 winLength-3 configuration it stays
strictly inside (-1, 1) for every non-terminal board whenever the depth
adjustment is at most 159 in absolute value. -/
theorem c5_heuristic_bounds :
    (∀ n ∈ Finset.Icc 3 10, ∀ s ∈ Finset.Icc 3 n, ∀ b : Board,
        -1 < e2 ⟨n, s⟩ b ∧ e2 ⟨n, s⟩ b < 1)
    ∧ (∀ (b : Board) (mx : Option Bool) (dep : ℤ), isEnd g3 b = none →
        -159 ≤ e1Adj mx dep → e1Adj mx dep ≤ 159 →
        -1 < e1 g3 b mx dep ∧ e1 g3 b mx dep < 1) := by
  constructor
  · intro n hn s hs b
    have hbnd := totalLen_bound n hn s hs
    rw [e2_eq_totalLen]
    have hpow : (0 : ℚ) < (100 : ℚ) ^ s := by positivity
    have hT : (0 : ℚ) < (totalLen ⟨n, s⟩ : ℚ) := by exact_mod_cast hbnd.1
    constructor
    · have : (0 : ℚ) < ((100 : ℚ) ^ s)⁻¹ * 10 * (totalLen ⟨n, s⟩ : ℚ) := by positivity
      linarith
    · rw [inv_mul_eq_div, div_mul_eq_mul_div, div_lt_one hpow]
      have h10 : (10 : ℚ) * (totalLen ⟨n, s⟩ : ℚ) < (100 : ℚ) ^ s := by
        have := hbnd.2
        push_cast at this ⊢
        exact_mod_cast this
      linarith [h10]
  · intro b mx dep hend hlo hhi
    have hsc := e1Score_g3_bound hend
    unfold e1
    have hnum_lo : (-1000 : ℤ) < e1Score g3 b + e1Adj mx dep := by omega
    have hnum_hi : e1Score g3 b + e1Adj mx dep < 1000 := by omega
    have hpow : ((10 : ℚ) ^ g3.s) = 1000 := by norm_num [g3]
    rw [hpow]
    constructor
    · rw [lt_div_iff (by norm_num : (0 : ℚ) < 1000)]
      have : ((-1000 : ℤ) : ℚ) < ((e1Score g3 b + e1Adj mx dep : ℤ) : ℚ) := by
        exact_mod_cast hnum_lo
      push_cast at this ⊢
      linarith
    · rw [div_lt_one (by norm_num : (0 : ℚ) < 1000)]
      have : ((e1Score g3 b + e1Adj mx dep : ℤ) : ℚ) < ((1000 : ℤ) : ℚ) := by
        exact_mod_cast hnum_hi
      push_cast at this ⊢
      linarith

/-- The 10x10 counterexample board for C5: isolated XX pairs everywhere on the
even stored rows, odd rows empty — no winning run anywhere, yet the summed
`e1` score is -2550. -/
def B10 : Board :=
  [[Cell.X, Cell.X, Cell.E, Cell.X, Cell.X, Cell.E, Cell.X, Cell.X, Cell.E, Cell.X],
   List.replicate 10 Cell.E,
   [Cell.X, Cell.X, Cell.E, Cell.X, Cell.X, Cell.E, Cell.X, Cell.X, Cell.E, Cell.X],
   List.replicate 10 Cell.E,
   [Cell.X, Cell.X, Cell.E, Cell.X, Cell.X, Cell.E, Cell.X, Cell.X, Cell.E, Cell.X],
   List.replicate 10 Cell.E,
   [Cell.X, Cell.X, Cell.E, Cell.X, Cell.X, Cell.E, Cell.X, Cell.X, Cell.E, Cell.X],
   List.replicate 10 Cell.E,
   [Cell.X, Cell.X, Cell.E, Cell.X, Cell.X, Cell.E, Cell.X, Cell.X, Cell.E, Cell.X],
   List.replicate 10 Cell.E]

/-- C5 counterexample: `B10` is non-terminal (no run of 3 equal symbols, many
empty cells), yet `e1` — with the neutral maximize/depth arguments, so zero
depth adjustment — evaluates to -2550/1000 = -2.55, far outside (-1, 1): a
heuristic score can dominate the proven outcome -1. -/
theorem c5_counterexample :
    isEnd g10 B10 = none
    ∧ e1 g10 B10 none 0 = -2550 / 1000
    ∧ ¬(-1 < e1 g10 B10 none 0 ∧ e1 g10 B10 none 0 < 1) := by
  have hsc : e1Score g10 B10 = -2550 := by decide
  have hend : isEnd g10 B10 = none := by decide
  have he1 : e1 g10 B10 none 0 = -2550 / 1000 := by
    unfold e1
    rw [hsc]
    norm_num [e1Adj, g10]
  refine ⟨hend, he1, ?_⟩
  rw [he1]
  norm_num

/-- Witness for C5's amended theorem at concrete inputs: configuration (3,3)
with the empty board for `e2`; the empty board, neutral arguments for `e1`. -/
theorem c5_witness :
    (-1 < e2 ⟨3, 3⟩ empty3 ∧ e2 ⟨3, 3⟩ empty3 < 1)
    ∧ (-1 < e1 g3 empty3 none 0 ∧ e1 g3 empty3 none 0 < 1) :=
  ⟨c5_heuristic_bounds.1 3 (by decide) 3 (by decide) empty3,
   c5_heuristic_bounds.2 empty3 none 0 (by decide) (by decide) (by decide)⟩

/-! ### C4: when does a search return a concrete move -/

theorem termScore_bounds (r : Outcome) : -2 < termScore r ∧ termScore r < 2 := by
  cases r <;> norm_num [termScore]

theorem mmStep_max (acc : ℚ × Option (ℕ × ℕ)) (ij : ℕ × ℕ) (v : ℚ) :
    mmStep true acc ij v = if acc.1 < v then (v, some ij) else acc := rfl

theorem mmStep_min (acc : ℚ × Option (ℕ × ℕ)) (ij : ℕ × ℕ) (v : ℚ) :
    mmStep false acc ij v = if v < acc.1 then (v, some ij) else acc := rfl

theorem abFold_cons_max (f : ℕ × ℕ → ℚ → ℚ → ℚ) (ij : ℕ × ℕ) (rest : List (ℕ × ℕ))
    (al be : ℚ) (acc : ℚ × Option (ℕ × ℕ)) :
    abFold f true (ij :: rest) al be acc =
      if be ≤ (mmStep true acc ij (f ij al be)).1 then mmStep true acc ij (f ij al be)
      else abFold f true rest
        (if al < (mmStep true acc ij (f ij al be)).1 then (mmStep true acc ij (f ij al be)).1 else al)
        be (mmStep true acc ij (f ij al be)) := rfl

theorem abFold_cons_min (f : ℕ × ℕ → ℚ → ℚ → ℚ) (ij : ℕ × ℕ) (rest : List (ℕ × ℕ))
    (al be : ℚ) (acc : ℚ × Option (ℕ × ℕ)) :
    abFold f false (ij :: rest) al be acc =
      if (mmStep false acc ij (f ij al be)).1 ≤ al then mmStep false acc ij (f ij al be)
      else abFold f false rest al
        (if (mmStep false acc ij (f ij al be)).1 < be then (mmStep false acc ij (f ij al be)).1 else be)
        (mmStep false acc ij (f ij al be)) := rfl

theorem mmStep_cases (m : Bool) (acc : ℚ × Option (ℕ × ℕ)) (ij : ℕ × ℕ) (v : ℚ) :
    mmStep m acc ij v = (v, some ij) ∨ mmStep m acc ij v = acc := by
  cases m
  · rw [mmStep_min]
    split_ifs
    · exact Or.inl rfl
    · exact Or.inr rfl
  · rw [mmStep_max]
    split_ifs
    · exact Or.inl rfl
    · exact Or.inr rfl

theorem searchFold_lt_two {f : ℕ × ℕ → ℚ} :
    ∀ (l : List (ℕ × ℕ)) (acc : ℚ × Option (ℕ × ℕ)), (∀ ij ∈ l, f ij < 2) →
      acc.1 < 2 → (searchFold f true l acc).1 < 2 := by
  intro l
  induction l with
  | nil => intro acc _ h; exact h
  | cons ij rest ih =>
    intro acc hf hacc
    rw [searchFold]
    apply ih _ fun x hx => hf x (by simp [hx])
    rw [mmStep_max]
    split_ifs with h
    · exact hf ij (by simp)
    · exact hacc

theorem searchFold_gt_negTwo {f : ℕ × ℕ → ℚ} :
    ∀ (l : List (ℕ × ℕ)) (acc : ℚ × Option (ℕ × ℕ)), (∀ ij ∈ l, -2 < f ij) →
      (-2 < acc.1 ∨ l ≠ []) → -2 < (searchFold f true l acc).1 := by
  intro l
  induction l with
  | nil =>
    intro acc _ h
    rcases h with h | h
    · exact h
    · exact absurd rfl h
  | cons ij rest ih =>
    intro acc hf h
    rw [searchFold]
    apply ih _ fun x hx => hf x (by simp [hx])
    left
    rw [mmStep_max]
    split_ifs with hlt
    · exact hf ij (by simp)
    · exact lt_of_lt_of_le (hf ij (by simp)) (le_of_not_lt hlt)

theorem searchFold_gt_min {f : ℕ × ℕ → ℚ} :
    ∀ (l : List (ℕ × ℕ)) (acc : ℚ × Option (ℕ × ℕ)), (∀ ij ∈ l, -2 < f ij) →
      -2 < acc.1 → -2 < (searchFold f false l acc).1 := by
  intro l
  induction l with
  | nil => intro acc _ h; exact h
  | cons ij rest ih =>
    intro acc hf hacc
    rw [searchFold]
    apply ih _ fun x hx => hf x (by simp [hx])
    rw [mmStep_min]
    split_ifs with h
    · exact hf ij (by simp)
    · exact hacc

theorem searchFold_lt_min {f : ℕ × ℕ → ℚ} :
    ∀ (l : List (ℕ × ℕ)) (acc : ℚ × Option (ℕ × ℕ)), (∀ ij ∈ l, f ij < 2) →
      (acc.1 < 2 ∨ l ≠ []) → (searchFold f false l acc).1 < 2 := by
  intro l
  induction l with
  | nil =>
    intro acc _ h
    rcases h with h | h
    · exact h
    · exact absurd rfl h
  | cons ij rest ih =>
    intro acc hf h
    rw [searchFold]
    apply ih _ fun x hx => hf x (by simp [hx])
    left
    rw [mmStep_min]
    split_ifs with hlt
    · exact hf ij (by simp)
    · exact lt_of_le_of_lt (le_of_not_lt hlt) (hf ij (by simp))

theorem abFold_lt_two {f : ℕ × ℕ → ℚ → ℚ → ℚ} :
    ∀ (l : List (ℕ × ℕ)) (al be : ℚ) (acc : ℚ × Option (ℕ × ℕ)),
      (∀ ij ∈ l, ∀ a2 b2 : ℚ, f ij a2 b2 < 2) →
      acc.1 < 2 → (abFold f true l al be acc).1 < 2 := by
  intro l
  induction l with
  | nil => intro al be acc _ h; exact h
  | cons ij rest ih =>
    intro al be acc hf hacc
    rw [abFold_cons_max]
    have hstep : (mmStep true acc ij (f ij al be)).1 < 2 := by
      rw [mmStep_max]
      split_ifs with h
      · exact hf ij (by simp) al be
      · exact hacc
    split_ifs with h1 h2
    · exact hstep
    · exact ih _ _ _ (fun x hx a2 b2 => hf x (by simp [hx]) a2 b2) hstep
    · exact ih _ _ _ (fun x hx a2 b2 => hf x (by simp [hx]) a2 b2) hstep

theorem abFold_gt_negTwo {f : ℕ × ℕ → ℚ → ℚ → ℚ} :
    ∀ (l : List (ℕ × ℕ)) (al be : ℚ) (acc : ℚ × Option (ℕ × ℕ)),
      (∀ ij ∈ l, ∀ a2 b2 : ℚ, -2 < f ij a2 b2) →
      (-2 < acc.1 ∨ l ≠ []) → -2 < (abFold f true l al be acc).1 := by
  intro l
  induction l with
  | nil =>
    intro al be acc _ h
    rcases h with h | h
    · exact h
    · exact absurd rfl h
  | cons ij rest ih =>
    intro al be acc hf h
    rw [abFold_cons_max]
    have hstep : -2 < (mmStep true acc ij (f ij al be)).1 := by
      rw [mmStep_max]
      split_ifs with hlt
      · exact hf ij (by simp) al be
      · exact lt_of_lt_of_le (hf ij (by simp) al be) (le_of_not_lt hlt)
    split_ifs with h1 h2
    · exact hstep
    · exact ih _ _ _ (fun x hx a2 b2 => hf x (by simp [hx]) a2 b2) (Or.inl hstep)
    · exact ih _ _ _ (fun x hx a2 b2 => hf x (by simp [hx]) a2 b2) (Or.inl hstep)

theorem abFold_gt_min {f : ℕ × ℕ → ℚ → ℚ → ℚ} :
    ∀ (l : List (ℕ × ℕ)) (al be : ℚ) (acc : ℚ × Option (ℕ × ℕ)),
      (∀ ij ∈ l, ∀ a2 b2 : ℚ, -2 < f ij a2 b2) →
      -2 < acc.1 → -2 < (abFold f false l al be acc).1 := by
  intro l
  induction l with
  | nil => intro al be acc _ h; exact h
  | cons ij rest ih =>
    intro al be acc hf hacc
    rw [abFold_cons_min]
    have hstep : -2 < (mmStep false acc ij (f ij al be)).1 := by
      rw [mmStep_min]
      split_ifs with h
      · exact hf ij (by simp) al be
      · exact hacc
    split_ifs with h1 h2
    · exact hstep
    · exact ih _ _ _ (fun x hx a2 b2 => hf x (by simp [hx]) a2 b2) hstep
    · exact ih _ _ _ (fun x hx a2 b2 => hf x (by simp [hx]) a2 b2) hstep

theorem abFold_lt_min {f : ℕ × ℕ → ℚ → ℚ → ℚ} :
    ∀ (l : List (ℕ × ℕ)) (al be : ℚ) (acc : ℚ × Option (ℕ × ℕ)),
      (∀ ij ∈ l, ∀ a2 b2 : ℚ, f ij a2 b2 < 2) →
      (acc.1 < 2 ∨ l ≠ []) → (abFold f false l al be acc).1 < 2 := by
  intro l
  induction l with
  | nil =>
    intro al be acc _ h
    rcases h with h | h
    · exact h
    · exact absurd rfl h
  | cons ij rest ih =>
    intro al be acc hf h
    rw [abFold_cons_min]
    have hstep : (mmStep false acc ij (f ij al be)).1 < 2 := by
      rw [mmStep_min]
      split_ifs with hlt
      · exact hf ij (by simp) al be
      · exact lt_of_le_of_lt (le_of_not_lt hlt) (hf ij (by simp) al be)
    split_ifs with h1 h2
    · exact hstep
    · exact ih _ _ _ (fun x hx a2 b2 => hf x (by simp [hx]) a2 b2) (Or.inl hstep)
    · exact ih _ _ _ (fun x hx a2 b2 => hf x (by simp [hx]) a2 b2) (Or.inl hstep)

theorem minimax_val_bounds {hev : Heur} {g : GP}
    (hbnd : ∀ (b' : Board) (m : Bool) (k : ℕ), -2 < hev b' m k ∧ hev b' m k < 2) :
    ∀ (d : ℕ) (b : Board) (maxer : Bool),
      -2 < (minimax hev g d b maxer).1 ∧ (minimax hev g d b maxer).1 < 2 := by
  intro d
  induction d with
  | zero =>
    intro b maxer
    rw [minimax]
    cases isEnd g b with
    | some r => exact termScore_bounds r
    | none => exact hbnd b maxer 0
  | succ k ih =>
    intro b maxer
    rw [minimax]
    cases hend : isEnd g b with
    | some r => exact termScore_bounds r
    | none =>
      have hne := isEnd_none_avail_ne_nil hend
      cases maxer with
      | true =>
        refine ⟨searchFold_gt_negTwo _ _ (fun ij _ => (ih _ _).1) (Or.inr hne), ?_⟩
        exact searchFold_lt_two _ _ (fun ij _ => (ih _ _).2) (by norm_num [initVal])
      | false =>
        refine ⟨searchFold_gt_min _ _ (fun ij _ => (ih _ _).1) (by norm_num [initVal]), ?_⟩
        exact searchFold_lt_min _ _ (fun ij _ => (ih _ _).2) (Or.inr hne)

theorem alphabeta_val_bounds {hev : Heur} {g : GP}
    (hbnd : ∀ (b' : Board) (m : Bool) (k : ℕ), -2 < hev b' m k ∧ hev b' m k < 2) :
    ∀ (d : ℕ) (b : Board) (al be : ℚ) (maxer : Bool),
      -2 < (alphabeta hev g d b al be maxer).1 ∧ (alphabeta hev g d b al be maxer).1 < 2 := by
  intro d
  induction d with
  | zero =>
    intro b al be maxer
    rw [alphabeta]
    cases isEnd g b with
    | some r => exact termScore_bounds r
    | none => exact hbnd b maxer 0
  | succ k ih =>
    intro b al be maxer
    rw [alphabeta]
    cases hend : isEnd g b with
    | some r => exact termScore_bounds r
    | none =>
      have hne := isEnd_none_avail_ne_nil hend
      cases maxer with
      | true =>
        refine ⟨abFold_gt_negTwo _ _ _ _ (fun ij _ a2 b2 => (ih _ _ _ _).1) (Or.inr hne), ?_⟩
        exact abFold_lt_two _ _ _ _ (fun ij _ a2 b2 => (ih _ _ _ _).2) (by norm_num [initVal])
      | false =>
        refine ⟨abFold_gt_min _ _ _ _ (fun ij _ a2 b2 => (ih _ _ _ _).1) (by norm_num [initVal]), ?_⟩
        exact abFold_lt_min _ _ _ _ (fun ij _ a2 b2 => (ih _ _ _ _).2) (Or.inr hne)

theorem searchFold_some_preserve {f : ℕ × ℕ → ℚ} {m : Bool} :
    ∀ (l : List (ℕ × ℕ)) (acc : ℚ × Option (ℕ × ℕ)), acc.2.isSome →
      (searchFold f m l acc).2.isSome := by
  intro l
  induction l with
  | nil => intro acc h; exact h
  | cons ij rest ih =>
    intro acc h
    rw [searchFold]
    apply ih
    rcases mmStep_cases m acc ij (f ij) with hc | hc <;> rw [hc]
    · rfl
    · exact h

theorem searchFold_mem {f : ℕ × ℕ → ℚ} {m : Bool} :
    ∀ (l : List (ℕ × ℕ)) (acc : ℚ × Option (ℕ × ℕ)) (p : ℕ × ℕ),
      (searchFold f m l acc).2 = some p → p ∈ l ∨ acc.2 = some p := by
  intro l
  induction l with
  | nil => intro acc p h; exact Or.inr h
  | cons ij rest ih =>
    intro acc p h
    rw [searchFold] at h
    rcases ih _ p h with hmem | hacc
    · exact Or.inl (by simp [hmem])
    · rcases mmStep_cases m acc ij (f ij) with hc | hc <;> rw [hc] at hacc
      · simp only [Option.some.injEq] at hacc
        exact Or.inl (by simp [← hacc])
      · exact Or.inr hacc

theorem abFold_some_preserve {f : ℕ × ℕ → ℚ → ℚ → ℚ} {m : Bool} :
    ∀ (l : List (ℕ × ℕ)) (al be : ℚ) (acc : ℚ × Option (ℕ × ℕ)), acc.2.isSome →
      (abFold f m l al be acc).2.isSome := by
  intro l
  induction l with
  | nil => intro al be acc h; exact h
  | cons ij rest ih =>
    intro al be acc h
    have hstep : (mmStep m acc ij (f ij al be)).2.isSome := by
      rcases mmStep_cases m acc ij (f ij al be) with hc | hc <;> rw [hc]
      · rfl
      · exact h
    cases m with
    | true =>
      rw [abFold_cons_max]
      split_ifs with h1 h2
      · exact hstep
      · exact ih _ _ _ hstep
      · exact ih _ _ _ hstep
    | false =>
      rw [abFold_cons_min]
      split_ifs with h1 h2
      · exact hstep
      · exact ih _ _ _ hstep
      · exact ih _ _ _ hstep

theorem abFold_mem {f : ℕ × ℕ → ℚ → ℚ → ℚ} {m : Bool} :
    ∀ (l : List (ℕ × ℕ)) (al be : ℚ) (acc : ℚ × Option (ℕ × ℕ)) (p : ℕ × ℕ),
      (abFold f m l al be acc).2 = some p → p ∈ l ∨ acc.2 = some p := by
  intro l
  induction l with
  | nil => intro al be acc p h; exact Or.inr h
  | cons ij rest ih =>
    intro al be acc p h
    have hstep : ∀ hq : (mmStep m acc ij (f ij al be)).2 = some p, p ∈ ij :: rest ∨ acc.2 = some p := by
      intro hq
      rcases mmStep_cases m acc ij (f ij al be) with hc | hc <;> rw [hc] at hq
      · simp only [Option.some.injEq] at hq
        exact Or.inl (by simp [← hq])
      · exact Or.inr hq
    cases m with
    | true =>
      rw [abFold_cons_max] at h
      split_ifs at h with h1 h2
      · exact hstep h
      · rcases ih _ _ _ p h with hmem | hacc
        · exact Or.inl (by simp [hmem])
        · exact hstep hacc
      · rcases ih _ _ _ p h with hmem | hacc
        · exact Or.inl (by simp [hmem])
        · exact hstep hacc
    | false =>
      rw [abFold_cons_min] at h
      split_ifs at h with h1 h2
      · exact hstep h
      · rcases ih _ _ _ p h with hmem | hacc
        · exact Or.inl (by simp [hmem])
        · exact hstep hacc
      · rcases ih _ _ _ p h with hmem | hacc
        · exact Or.inl (by simp [hmem])
        · exact hstep hacc

theorem minimax_succ_none {hev : Heur} {g : GP} {d : ℕ} {b : Board} {maxer : Bool}
    (hend : isEnd g b = none) :
    minimax hev g (d + 1) b maxer =
      searchFold
        (fun ij =>
          (minimax hev g d (setCell b ij.1 ij.2 (if maxer then Cell.O else Cell.X))
            (!maxer)).1)
        maxer (avail g b) (initVal maxer, none) := by
  rw [minimax, hend]

theorem alphabeta_succ_none {hev : Heur} {g : GP} {d : ℕ} {b : Board} {al be : ℚ}
    {maxer : Bool} (hend : isEnd g b = none) :
    alphabeta hev g (d + 1) b al be maxer =
      abFold
        (fun ij a2 b2 =>
          (alphabeta hev g d (setCell b ij.1 ij.2 (if maxer then Cell.O else Cell.X))
            a2 b2 (!maxer)).1)
        maxer (avail g b) al be (initVal maxer, none) := by
  rw [alphabeta, hend]

theorem mmStep_init_some (m : Bool) (ij : ℕ × ℕ) {v : ℚ} (h1 : -2 < v) (h2 : v < 2) :
    (mmStep m (initVal m, none) ij v).2.isSome := by
  cases m
  · rw [mmStep_min, if_pos (by simpa [initVal] using h2)]
    rfl
  · rw [mmStep_max, if_pos (by simpa [initVal] using h1)]
    rfl

theorem abFold_cons_some {f : ℕ × ℕ → ℚ → ℚ → ℚ} {m : Bool} (ij : ℕ × ℕ)
    (rest : List (ℕ × ℕ)) (al be : ℚ) (acc : ℚ × Option (ℕ × ℕ))
    (h : (mmStep m acc ij (f ij al be)).2.isSome) :
    (abFold f m (ij :: rest) al be acc).2.isSome := by
  cases m with
  | true =>
    rw [abFold_cons_max]
    split_ifs with h1 h2
    · exact h
    · exact abFold_some_preserve _ _ _ _ h
    · exact abFold_some_preserve _ _ _ _ h
  | false =>
    rw [abFold_cons_min]
    split_ifs with h1 h2
    · exact h
    · exact abFold_some_preserve _ _ _ _ h
    · exact abFold_some_preserve _ _ _ _ h

/-- C4 amended: on a non-terminal board, with a positive depth limit, no time
cutoff, and heuristic values strictly inside (-2, 2) — as the intended design
assumes — both searches return a concrete move, and it is one of the empty
cells of the board.  (As stated the claim is false: any terminal verdict at
the root — not only a full board — and any depth-0 or root-time cutoff
returns score with no move; see the counterexample.) -/
theorem c4_move_some (g : GP) (b : Board) (maxer : Bool) (d : ℕ) (hev : Heur)
    (hend : isEnd g b = none)
    (hbnd : ∀ (b' : Board) (m : Bool) (k : ℕ), -2 < hev b' m k ∧ hev b' m k < 2) :
    ((minimax hev g (d + 1) b maxer).2.isSome
      ∧ ∀ p, (minimax hev g (d + 1) b maxer).2 = some p → p ∈ avail g b)
    ∧ ∀ al be : ℚ, (alphabeta hev g (d + 1) b al be maxer).2.isSome
      ∧ ∀ p, (alphabeta hev g (d + 1) b al be maxer).2 = some p → p ∈ avail g b := by
  have hne := isEnd_none_avail_ne_nil hend
  rcases havail : avail g b with _ | ⟨ij, rest⟩
  · exact absurd havail hne
  constructor
  · rw [minimax_succ_none hend, havail]
    constructor
    · rw [searchFold]
      apply searchFold_some_preserve
      have hb := minimax_val_bounds (g := g) hbnd d
        (setCell b ij.1 ij.2 (if maxer then Cell.O else Cell.X)) (!maxer)
      exact mmStep_init_some maxer ij hb.1 hb.2
    · intro p hp
      rcases searchFold_mem _ _ p hp with hmem | habs
      · exact hmem
      · exact Option.noConfusion habs
  · intro al be
    rw [alphabeta_succ_none hend, havail]
    constructor
    · have hb := alphabeta_val_bounds (g := g) hbnd d
        (setCell b ij.1 ij.2 (if maxer then Cell.O else Cell.X)) al be (!maxer)
      exact abFold_cons_some ij rest al be _ (mmStep_init_some maxer ij hb.1 hb.2)
    · intro p hp
      rcases abFold_mem _ _ _ _ p hp with hmem | habs
      · exact hmem
      · exact Option.noConfusion habs

/-- The 3x3 board with a won top X line and six empty cells. -/
def bWin : Board :=
  [[Cell.X, Cell.X, Cell.X], [Cell.E, Cell.E, Cell.E], [Cell.E, Cell.E, Cell.E]]

/-- C4 counterexample: `bWin` is not full (six empty cells), yet the top-level
search returns no move — `none` does not only mean "board full": any terminal
verdict at the root (and likewise a depth-0 or root-time cutoff) yields
`(score, none)`. -/
theorem c4_counterexample :
    (minimax hev0 g3 5 bWin false).2 = none
    ∧ isFull g3 bWin = false
    ∧ isEnd g3 bWin = some Outcome.XWin
    ∧ (minimax hev0 g3 0 empty3 false).2 = none
    ∧ isEnd g3 empty3 = none := by
  decide

/-- Witness for C4's amended theorem: the empty 3x3 board, X to move, depth 1,
constant-zero heuristic. -/
theorem c4_witness :
    (minimax (fun _ _ _ => (0 : ℚ)) g3 1 empty3 false).2.isSome
    ∧ (alphabeta (fun _ _ _ => (0 : ℚ)) g3 1 empty3 (-2) 2 false).2.isSome :=
  ⟨(c4_move_some g3 empty3 false 0 (fun _ _ _ => (0 : ℚ)) (by decide)
      fun _ _ _ => by norm_num).1.1,
   ((c4_move_some g3 empty3 false 0 (fun _ _ _ => (0 : ℚ)) (by decide)
      fun _ _ _ => by norm_num).2 (-2) 2).1⟩

/-! ### C9: place / clear round trip and frame condition -/

theorem setCell_roundtrip {b : Board} {i j : ℕ} (c : Cell) (h : cell b i j = Cell.E) :
    setCell (setCell b i j c) i j Cell.E = b := by
  unfold setCell cell at *
  by_cases hi : i < b.length
  · rw [List.set_set]
    have hrow : (b.set i ((b.getD i []).set j c)).getD i [] = (b.getD i []).set j c :=
      getD_set_same _ _ b i hi
    rw [hrow, List.set_set]
    rw [← h, set_getD_self, set_getD_self]
  · push_neg at hi
    rw [List.set_eq_of_length_le hi, List.set_eq_of_length_le hi]

theorem setCell_frame {b : Board} {i j : ℕ} (c : Cell) {i' j' : ℕ}
    (hne : (i', j') ≠ (i, j)) : cell (setCell b i j c) i' j' = cell b i' j' := by
  unfold setCell cell
  by_cases hii : i = i'
  · subst hii
    have hjj : j ≠ j' := by
      intro h; exact hne (by simp [h])
    by_cases hi : i < b.length
    · rw [getD_set_same _ _ b i hi, getD_set_ne _ _ _ j j' hjj]
    · push_neg at hi
      rw [List.set_eq_of_length_le hi]
  · rw [getD_set_ne _ _ _ i i' hii]

/-- C9: placing a symbol on an empty cell and clearing it again restores the
board exactly — cell-for-cell equality, hence terminal-detector equality — and
a placement changes no cell other than the one placed (the frame property the
search's place/recurse/undo loop relies on). -/
theorem c9_place_clear_roundtrip (g : GP) (b : Board) (i j : ℕ) (c : Cell)
    (h : cell b i j = Cell.E) :
    setCell (setCell b i j c) i j Cell.E = b
    ∧ (∀ i' j' : ℕ, (i', j') ≠ (i, j) → cell (setCell b i j c) i' j' = cell b i' j')
    ∧ isEnd g (setCell (setCell b i j c) i j Cell.E) = isEnd g b := by
  refine ⟨setCell_roundtrip c h, fun i' j' hne => setCell_frame c hne, ?_⟩
  rw [setCell_roundtrip c h]

/-- Witness for C9 at a concrete input: the empty 3x3 board, placing 'O' at
(1,1). -/
theorem c9_witness :
    cell empty3 1 1 = Cell.E
    ∧ setCell (setCell empty3 1 1 Cell.O) 1 1 Cell.E = empty3
    ∧ cell (setCell empty3 1 1 Cell.O) 0 2 = cell empty3 0 2 := by
  refine ⟨by decide, (c9_place_clear_roundtrip g3 empty3 1 1 Cell.O (by decide)).1, ?_⟩
  exact (c9_place_clear_roundtrip g3 empty3 1 1 Cell.O (by decide)).2.1 0 2 (by decide)

/-! ### C1 groundwork: one placement removes exactly one available cell -/

theorem filterMapIte (P : ℕ → Prop) [DecidablePred P] (i : ℕ) :
    ∀ l : List ℕ, l.filterMap (fun j => if P j then some (i, j) else none)
      = (l.filter fun j => decide (P j)).map fun j => (i, j) := by
  intro l
  induction l with
  | nil => rfl
  | cons a t ih =>
    by_cases h : P a
    · rw [List.filterMap_cons, List.filter_cons]
      simp [h, ih]
    · rw [List.filterMap_cons, List.filter_cons]
      simp [h, ih]

theorem lengthFlatMapSum {α β : Type} (f : α → List β) :
    ∀ l : List α, (l.flatMap f).length = (l.map fun a => (f a).length).sum := by
  intro l
  induction l with
  | nil => rfl
  | cons a t ih => simp [List.flatMap_cons, ih]

theorem mapSumFlip {F F' : ℕ → ℕ} {i : ℕ} (hFi : F' i + 1 = F i)
    (hagree : ∀ k, k ≠ i → F' k = F k) :
    ∀ l : List ℕ, l.Nodup → i ∈ l → (l.map F').sum + 1 = (l.map F).sum := by
  intro l
  induction l with
  | nil => intro _ h; simp at h
  | cons a t ih =>
    intro hnd hmem
    by_cases hai : a = i
    · subst hai
      have hnotin : a ∉ t := (List.nodup_cons.1 hnd).1
      have ht : t.map F' = t.map F :=
        List.map_congr_left fun k hk => hagree k (fun hki => hnotin (hki ▸ hk))
      simp only [List.map_cons, List.sum_cons, ht]
      omega
    · have hmem' : i ∈ t := by
        rcases List.mem_cons.1 hmem with h | h
        · exact absurd h.symm hai
        · exact h
      have ha : F' a = F a := hagree a hai
      simp only [List.map_cons, List.sum_cons, ha]
      have := ih (List.nodup_cons.1 hnd).2 hmem'
      omega

theorem filterFlip {p p' : ℕ → Bool} {j : ℕ} (h1 : p j = true) (h2 : p' j = false)
    (hagree : ∀ k, k ≠ j → p' k = p k) :
    ∀ l : List ℕ, l.Nodup → j ∈ l → (l.filter p').length + 1 = (l.filter p).length := by
  intro l
  induction l with
  | nil => intro _ h; simp at h
  | cons a t ih =>
    intro hnd hmem
    by_cases haj : a = j
    · subst haj
      have hnotin : a ∉ t := (List.nodup_cons.1 hnd).1
      have ht : t.filter p' = t.filter p :=
        List.filter_congr fun k hk => by rw [hagree k (fun hkj => hnotin (hkj ▸ hk))]
      rw [List.filter_cons, List.filter_cons, h1, h2, ht]
      simp
    · have hmem' : j ∈ t := by
        rcases List.mem_cons.1 hmem with h | h
        · exact absurd h.symm haj
        · exact h
      have ha : p' a = p a := hagree a haj
      rw [List.filter_cons, List.filter_cons, ha]
      have := ih (List.nodup_cons.1 hnd).2 hmem'
      cases hpa : p a <;> simp [hpa] <;> omega

theorem avail_eq_filter (g : GP) (b : Board) :
    avail g b = (List.range g.n).flatMap fun i =>
      ((List.range g.n).filter fun j => decide (cell b i j = Cell.E)).map fun j => (i, j) := by
  unfold avail
  exact flatMapCongr _ fun i _ => filterMapIte (fun j => cell b i j = Cell.E) i _

/-- Well-formed board: `n` rows of `n` cells — the shape `initialize_game`
always builds. -/
def WF (g : GP) (b : Board) : Prop :=
  b.length = g.n ∧ ∀ row ∈ b, row.length = g.n

theorem getD_mem {α : Type} (d : α) : ∀ (l : List α) (i : ℕ), i < l.length →
    l.getD i d ∈ l := by
  intro l
  induction l with
  | nil => intro i h; simp at h
  | cons a t ih =>
    intro i h
    cases i with
    | zero => simp
    | succ k =>
      have := ih k (by simpa using h)
      simp only [List.getD_cons_succ]
      exact List.mem_cons_of_mem _ this

theorem mem_of_set {α : Type} (a x : α) : ∀ (l : List α) (i : ℕ),
    x ∈ l.set i a → x = a ∨ x ∈ l := by
  intro l
  induction l with
  | nil => intro i h; simp at h
  | cons c t ih =>
    intro i h
    cases i with
    | zero =>
      rcases List.mem_cons.1 h with rfl | h'
      · exact Or.inl rfl
      · exact Or.inr (List.mem_cons_of_mem _ h')
    | succ k =>
      rcases List.mem_cons.1 h with rfl | h'
      · exact Or.inr (by simp)
      · rcases ih k h' with h'' | h''
        · exact Or.inl h''
        · exact Or.inr (List.mem_cons_of_mem _ h'')

theorem WF_setCell {g : GP} {b : Board} (i j : ℕ) (c : Cell) (h : WF g b) :
    WF g (setCell b i j c) := by
  constructor
  · rw [setCell, List.length_set]
    exact h.1
  · intro row hrow
    unfold setCell at hrow
    by_cases hi : i < b.length
    · rcases mem_of_set _ _ _ _ hrow with rfl | hmem
      · rw [List.length_set]
        exact h.2 _ (getD_mem [] b i hi)
      · exact h.2 _ hmem
    · rw [List.set_eq_of_length_le (le_of_not_lt hi)] at hrow
      exact h.2 _ hrow

theorem cell_setCell_self {b : Board} {i j : ℕ} (hi : i < b.length)
    (hj : j < (b.getD i []).length) (c : Cell) : cell (setCell b i j c) i j = c := by
  unfold cell setCell
  rw [getD_set_same _ _ b i hi, getD_set_same _ _ _ j hj]

theorem countEmpty_set {g : GP} {b : Board} {i j : ℕ} {sym : Cell} (hwf : WF g b)
    (hmem : (i, j) ∈ avail g b) (hsym : sym ≠ Cell.E) :
    countEmpty g (setCell b i j sym) + 1 = countEmpty g b := by
  rcases (mem_avail g b i j).1 hmem with ⟨hi, hj, hcell⟩
  have hib : i < b.length := by rw [hwf.1]; exact hi
  have hjb : j < (b.getD i []).length := by
    rw [hwf.2 _ (getD_mem [] b i hib)]
    exact hj
  unfold countEmpty
  rw [avail_eq_filter, avail_eq_filter, lengthFlatMapSum, lengthFlatMapSum]
  have hmaps : ∀ (b' : Board) (i' : ℕ),
      ((((List.range g.n).filter fun j' => decide (cell b' i' j' = Cell.E)).map
        fun j' => (i', j')).length)
        = ((List.range g.n).filter fun j' => decide (cell b' i' j' = Cell.E)).length := by
    intro b' i'
    rw [List.length_map]
  apply mapSumFlip (F := fun i' =>
      ((((List.range g.n).filter fun j' => decide (cell b i' j' = Cell.E)).map
        fun j' => (i', j')).length))
    (i := i)
  · rw [hmaps, hmaps]
    apply filterFlip (j := j)
    · simp [hcell]
    · rw [cell_setCell_self hib hjb]
      simpa using hsym
    · intro k hk
      have : cell (setCell b i j sym) i k = cell b i k :=
        setCell_frame sym fun hp => hk (Prod.ext_iff.1 hp).2
      rw [this]
    · exact List.nodup_range _
    · exact List.mem_range.2 hj
  · intro k hk
    rw [hmaps, hmaps]
    congr 1
    apply List.filter_congr
    intro j' _
    have : cell (setCell b i j sym) k j' = cell b k j' :=
      setCell_frame sym fun hp => hk (Prod.ext_iff.1 hp).1
    rw [this]
  · exact List.nodup_range _
  · exact List.mem_range.2 hi

/-! ### C1: full-depth searches return exact game values in [-1, 1] -/

theorem minimax_end {hev : Heur} {g : GP} {d : ℕ} {b : Board} {maxer : Bool}
    {r : Outcome} (hend : isEnd g b = some r) :
    minimax hev g d b maxer = (termScore r, none) := by
  cases d <;> rw [minimax, hend]

theorem alphabeta_end {hev : Heur} {g : GP} {d : ℕ} {b : Board} {al be : ℚ}
    {maxer : Bool} {r : Outcome} (hend : isEnd g b = some r) :
    alphabeta hev g d b al be maxer = (termScore r, none) := by
  cases d <;> rw [alphabeta, hend]

theorem mmStep_fst_max (acc : ℚ × Option (ℕ × ℕ)) (ij : ℕ × ℕ) (v : ℚ) :
    (mmStep true acc ij v).1 = max acc.1 v := by
  rw [mmStep_max]
  split_ifs with h
  · exact (max_eq_right h.le).symm
  · exact (max_eq_left (not_lt.1 h)).symm

theorem mmStep_fst_min (acc : ℚ × Option (ℕ × ℕ)) (ij : ℕ × ℕ) (v : ℚ) :
    (mmStep false acc ij v).1 = min acc.1 v := by
  rw [mmStep_min]
  split_ifs with h
  · exact (min_eq_right h.le).symm
  · exact (min_eq_left (not_lt.1 h)).symm

theorem ifMax (a b : ℚ) : (if a < b then b else a) = max a b := by
  split_ifs with h
  · exact (max_eq_right h.le).symm
  · exact (max_eq_left (not_lt.1 h)).symm

theorem ifMin (a b : ℚ) : (if b < a then b else a) = min a b := by
  split_ifs with h
  · exact (min_eq_right h.le).symm
  · exact (min_eq_left (not_lt.1 h)).symm

theorem sf_mono_max {f : ℕ × ℕ → ℚ} :
    ∀ (l : List (ℕ × ℕ)) (acc : ℚ × Option (ℕ × ℕ)),
      acc.1 ≤ (searchFold f true l acc).1 := by
  intro l
  induction l with
  | nil => intro acc; exact le_refl _
  | cons ij rest ih =>
    intro acc
    rw [searchFold]
    refine le_trans ?_ (ih _)
    rw [mmStep_fst_max]
    exact le_max_left _ _

theorem sf_mono_min {f : ℕ × ℕ → ℚ} :
    ∀ (l : List (ℕ × ℕ)) (acc : ℚ × Option (ℕ × ℕ)),
      (searchFold f false l acc).1 ≤ acc.1 := by
  intro l
  induction l with
  | nil => intro acc; exact le_refl _
  | cons ij rest ih =>
    intro acc
    rw [searchFold]
    refine le_trans (ih _) ?_
    rw [mmStep_fst_min]
    exact min_le_left _ _

theorem sfUB_max (c : ℚ) {f : ℕ × ℕ → ℚ} :
    ∀ (l : List (ℕ × ℕ)) (acc : ℚ × Option (ℕ × ℕ)), (∀ ij ∈ l, f ij ≤ c) →
      acc.1 ≤ c → (searchFold f true l acc).1 ≤ c := by
  intro l
  induction l with
  | nil => intro acc _ h; exact h
  | cons ij rest ih =>
    intro acc hf hacc
    rw [searchFold]
    apply ih _ fun x hx => hf x (by simp [hx])
    rw [mmStep_fst_max]
    exact max_le hacc (hf ij (by simp))

theorem sfLB_max (c : ℚ) {f : ℕ × ℕ → ℚ} :
    ∀ (l : List (ℕ × ℕ)) (acc : ℚ × Option (ℕ × ℕ)), (∀ ij ∈ l, c ≤ f ij) →
      (c ≤ acc.1 ∨ l ≠ []) → c ≤ (searchFold f true l acc).1 := by
  intro l
  induction l with
  | nil =>
    intro acc _ h
    rcases h with h | h
    · exact h
    · exact absurd rfl h
  | cons ij rest ih =>
    intro acc hf h
    rw [searchFold]
    apply ih _ fun x hx => hf x (by simp [hx])
    left
    rw [mmStep_fst_max]
    exact le_trans (hf ij (by simp)) (le_max_right _ _)

theorem sfLB_min (c : ℚ) {f : ℕ × ℕ → ℚ} :
    ∀ (l : List (ℕ × ℕ)) (acc : ℚ × Option (ℕ × ℕ)), (∀ ij ∈ l, c ≤ f ij) →
      c ≤ acc.1 → c ≤ (searchFold f false l acc).1 := by
  intro l
  induction l with
  | nil => intro acc _ h; exact h
  | cons ij rest ih =>
    intro acc hf hacc
    rw [searchFold]
    apply ih _ fun x hx => hf x (by simp [hx])
    rw [mmStep_fst_min]
    exact le_min hacc (hf ij (by simp))

theorem sfUB_min (c : ℚ) {f : ℕ × ℕ → ℚ} :
    ∀ (l : List (ℕ × ℕ)) (acc : ℚ × Option (ℕ × ℕ)), (∀ ij ∈ l, f ij ≤ c) →
      (acc.1 ≤ c ∨ l ≠ []) → (searchFold f false l acc).1 ≤ c := by
  intro l
  induction l with
  | nil =>
    intro acc _ h
    rcases h with h | h
    · exact h
    · exact absurd rfl h
  | cons ij rest ih =>
    intro acc hf h
    rw [searchFold]
    apply ih _ fun x hx => hf x (by simp [hx])
    left
    rw [mmStep_fst_min]
    exact le_trans (min_le_right _ _) (hf ij (by simp))

theorem abUB_max (c : ℚ) {f : ℕ × ℕ → ℚ → ℚ → ℚ} :
    ∀ (l : List (ℕ × ℕ)) (al be : ℚ) (acc : ℚ × Option (ℕ × ℕ)),
      (∀ ij ∈ l, ∀ a2 b2 : ℚ, f ij a2 b2 ≤ c) →
      acc.1 ≤ c → (abFold f true l al be acc).1 ≤ c := by
  intro l
  induction l with
  | nil => intro al be acc _ h; exact h
  | cons ij rest ih =>
    intro al be acc hf hacc
    rw [abFold_cons_max]
    have hstep : (mmStep true acc ij (f ij al be)).1 ≤ c := by
      rw [mmStep_fst_max]
      exact max_le hacc (hf ij (by simp) al be)
    split_ifs with h1 h2
    · exact hstep
    · exact ih _ _ _ (fun x hx a2 b2 => hf x (by simp [hx]) a2 b2) hstep
    · exact ih _ _ _ (fun x hx a2 b2 => hf x (by simp [hx]) a2 b2) hstep

theorem abLB_max (c : ℚ) {f : ℕ × ℕ → ℚ → ℚ → ℚ} :
    ∀ (l : List (ℕ × ℕ)) (al be : ℚ) (acc : ℚ × Option (ℕ × ℕ)),
      (∀ ij ∈ l, ∀ a2 b2 : ℚ, c ≤ f ij a2 b2) →
      (c ≤ acc.1 ∨ l ≠ []) → c ≤ (abFold f true l al be acc).1 := by
  intro l
  induction l with
  | nil =>
    intro al be acc _ h
    rcases h with h | h
    · exact h
    · exact absurd rfl h
  | cons ij rest ih =>
    intro al be acc hf h
    rw [abFold_cons_max]
    have hstep : c ≤ (mmStep true acc ij (f ij al be)).1 := by
      rw [mmStep_fst_max]
      exact le_trans (hf ij (by simp) al be) (le_max_right _ _)
    split_ifs with h1 h2
    · exact hstep
    · exact ih _ _ _ (fun x hx a2 b2 => hf x (by simp [hx]) a2 b2) (Or.inl hstep)
    · exact ih _ _ _ (fun x hx a2 b2 => hf x (by simp [hx]) a2 b2) (Or.inl hstep)

theorem abLB_min (c : ℚ) {f : ℕ × ℕ → ℚ → ℚ → ℚ} :
    ∀ (l : List (ℕ × ℕ)) (al be : ℚ) (acc : ℚ × Option (ℕ × ℕ)),
      (∀ ij ∈ l, ∀ a2 b2 : ℚ, c ≤ f ij a2 b2) →
      c ≤ acc.1 → c ≤ (abFold f false l al be acc).1 := by
  intro l
  induction l with
  | nil => intro al be acc _ h; exact h
  | cons ij rest ih =>
    intro al be acc hf hacc
    rw [abFold_cons_min]
    have hstep : c ≤ (mmStep false acc ij (f ij al be)).1 := by
      rw [mmStep_fst_min]
      exact le_min hacc (hf ij (by simp) al be)
    split_ifs with h1 h2
    · exact hstep
    · exact ih _ _ _ (fun x hx a2 b2 => hf x (by simp [hx]) a2 b2) hstep
    · exact ih _ _ _ (fun x hx a2 b2 => hf x (by simp [hx]) a2 b2) hstep

theorem abUB_min (c : ℚ) {f : ℕ × ℕ → ℚ → ℚ → ℚ} :
    ∀ (l : List (ℕ × ℕ)) (al be : ℚ) (acc : ℚ × Option (ℕ × ℕ)),
      (∀ ij ∈ l, ∀ a2 b2 : ℚ, f ij a2 b2 ≤ c) →
      (acc.1 ≤ c ∨ l ≠ []) → (abFold f false l al be acc).1 ≤ c := by
  intro l
  induction l with
  | nil =>
    intro al be acc _ h
    rcases h with h | h
    · exact h
    · exact absurd rfl h
  | cons ij rest ih =>
    intro al be acc hf h
    rw [abFold_cons_min]
    have hstep : (mmStep false acc ij (f ij al be)).1 ≤ c := by
      rw [mmStep_fst_min]
      exact le_trans (min_le_right _ _) (hf ij (by simp) al be)
    split_ifs with h1 h2
    · exact hstep
    · exact ih _ _ _ (fun x hx a2 b2 => hf x (by simp [hx]) a2 b2) (Or.inl hstep)
    · exact ih _ _ _ (fun x hx a2 b2 => hf x (by simp [hx]) a2 b2) (Or.inl hstep)

theorem termScore_Icc (r : Outcome) : -1 ≤ termScore r ∧ termScore r ≤ 1 := by
  cases r <;> norm_num [termScore]

theorem sym_ne_E (maxer : Bool) : (if maxer then Cell.O else Cell.X) ≠ Cell.E := by
  cases maxer <;> decide

/-- At full depth (depth exceeding the number of empty cells) the heuristic is
never consulted and `minimax` returns an exact game value in [-1, 1]. -/
theorem minimax_fullDepth_Icc (hev : Heur) (g : GP) :
    ∀ (d : ℕ) (b : Board) (maxer : Bool), WF g b → countEmpty g b < d →
      -1 ≤ (minimax hev g d b maxer).1 ∧ (minimax hev g d b maxer).1 ≤ 1 := by
  intro d
  induction d with
  | zero => intro b maxer _ h; omega
  | succ k ih =>
    intro b maxer hwf hcnt
    cases hend : isEnd g b with
    | some r =>
      rw [minimax_end hend]
      exact termScore_Icc r
    | none =>
      rw [minimax_succ_none hend]
      have hne := isEnd_none_avail_ne_nil hend
      have hch : ∀ ij ∈ avail g b,
          -1 ≤ (minimax hev g k (setCell b ij.1 ij.2 (if maxer then Cell.O else Cell.X))
              (!maxer)).1
          ∧ (minimax hev g k (setCell b ij.1 ij.2 (if maxer then Cell.O else Cell.X))
              (!maxer)).1 ≤ 1 := by
        intro ij hij
        apply ih _ _ (WF_setCell _ _ _ hwf)
        have hdec := countEmpty_set (i := ij.1) (j := ij.2) hwf (by simpa using hij)
          (sym_ne_E maxer)
        omega
      cases maxer with
      | true =>
        constructor
        · exact sfLB_max (-1) _ _ (fun ij hij => (hch ij hij).1) (Or.inr hne)
        · exact sfUB_max 1 _ _ (fun ij hij => (hch ij hij).2) (by norm_num [initVal])
      | false =>
        constructor
        · exact sfLB_min (-1) _ _ (fun ij hij => (hch ij hij).1) (by norm_num [initVal])
        · exact sfUB_min 1 _ _ (fun ij hij => (hch ij hij).2) (Or.inr hne)

/-- Same bound for `alphabeta`, for every window. -/
theorem alphabeta_fullDepth_Icc (hev : Heur) (g : GP) :
    ∀ (d : ℕ) (b : Board) (al be : ℚ) (maxer : Bool), WF g b → countEmpty g b < d →
      -1 ≤ (alphabeta hev g d b al be maxer).1
      ∧ (alphabeta hev g d b al be maxer).1 ≤ 1 := by
  intro d
  induction d with
  | zero => intro b al be maxer _ h; omega
  | succ k ih =>
    intro b al be maxer hwf hcnt
    cases hend : isEnd g b with
    | some r =>
      rw [alphabeta_end hend]
      exact termScore_Icc r
    | none =>
      rw [alphabeta_succ_none hend]
      have hne := isEnd_none_avail_ne_nil hend
      have hch : ∀ ij ∈ avail g b, ∀ a2 b2 : ℚ,
          -1 ≤ (alphabeta hev g k (setCell b ij.1 ij.2 (if maxer then Cell.O else Cell.X))
              a2 b2 (!maxer)).1
          ∧ (alphabeta hev g k (setCell b ij.1 ij.2 (if maxer then Cell.O else Cell.X))
              a2 b2 (!maxer)).1 ≤ 1 := by
        intro ij hij a2 b2
        apply ih _ _ _ _ (WF_setCell _ _ _ hwf)
        have hdec := countEmpty_set (i := ij.1) (j := ij.2) hwf (by simpa using hij)
          (sym_ne_E maxer)
        omega
      cases maxer with
      | true =>
        constructor
        · exact abLB_max (-1) _ _ _ _ (fun ij hij a2 b2 => (hch ij hij a2 b2).1) (Or.inr hne)
        · exact abUB_max 1 _ _ _ _ (fun ij hij a2 b2 => (hch ij hij a2 b2).2)
            (by norm_num [initVal])
      | false =>
        constructor
        · exact abLB_min (-1) _ _ _ _ (fun ij hij a2 b2 => (hch ij hij a2 b2).1)
            (by norm_num [initVal])
        · exact abUB_min 1 _ _ _ _ (fun ij hij a2 b2 => (hch ij hij a2 b2).2) (Or.inr hne)

/-- The children loop of a maximizing node: fail-soft alpha-beta relates to
the plain minimax fold.  `α0` is the alpha the node was called with; the loop
runs with the current `α = max α0 (best so far)`.  If the loop's result is at
most `α0` it is an upper bound on the minimax fold; if at least `β` a lower
bound; strictly inside the window the two agree. -/
theorem abLoopMax {F : ℕ × ℕ → ℚ} {G : ℕ × ℕ → ℚ → ℚ → ℚ} {al0 be : ℚ}
    (hal0 : -2 ≤ al0) (hal0be : al0 < be) :
    ∀ l : List (ℕ × ℕ),
      (∀ ij ∈ l, ∀ a2 : ℚ, -2 ≤ a2 → a2 < be →
        (G ij a2 be ≤ a2 → F ij ≤ G ij a2 be)
        ∧ (be ≤ G ij a2 be → G ij a2 be ≤ F ij)
        ∧ (a2 < G ij a2 be → G ij a2 be < be → G ij a2 be = F ij)) →
      ∀ (al : ℚ) (accA accM : ℚ × Option (ℕ × ℕ)),
        al = max al0 accA.1 → accM.1 ≤ accA.1 → accA.1 ≤ max al0 accM.1 → accA.1 < be →
        ((abFold G true l al be accA).1 ≤ al0 →
            (searchFold F true l accM).1 ≤ (abFold G true l al be accA).1)
        ∧ (be ≤ (abFold G true l al be accA).1 →
            (abFold G true l al be accA).1 ≤ (searchFold F true l accM).1)
        ∧ (al0 < (abFold G true l al be accA).1 → (abFold G true l al be accA).1 < be →
            (abFold G true l al be accA).1 = (searchFold F true l accM).1) := by
  intro l
  induction l with
  | nil =>
    intro _ al accA accM hal hMA hAM hAbe
    simp only [abFold, searchFold]
    refine ⟨fun _ => hMA, fun hbe => absurd hbe (not_le.2 hAbe), fun h1 _ => ?_⟩
    rcases le_or_lt accM.1 al0 with h | h
    · exfalso
      have : accA.1 ≤ al0 := le_trans hAM (le_of_eq (max_eq_left h))
      linarith
    · have : accA.1 ≤ accM.1 := le_trans hAM (le_of_eq (max_eq_right h.le))
      exact le_antisymm this hMA
  | cons ij rest ih =>
    intro hch al accA accM hal hMA hAM hAbe
    have hchij := hch ij (by simp) al
      (by rw [hal]; exact le_trans hal0 (le_max_left _ _))
      (by rw [hal]; exact max_lt hal0be hAbe)
    have hchR : ∀ x ∈ rest, ∀ a2 : ℚ, -2 ≤ a2 → a2 < be →
        (G x a2 be ≤ a2 → F x ≤ G x a2 be)
        ∧ (be ≤ G x a2 be → G x a2 be ≤ F x)
        ∧ (a2 < G x a2 be → G x a2 be < be → G x a2 be = F x) :=
      fun x hx => hch x (by simp [hx])
    rw [abFold_cons_max, searchFold]
    have hA1 : (mmStep true accA ij (G ij al be)).1 = max accA.1 (G ij al be) :=
      mmStep_fst_max _ _ _
    have hM1 : (mmStep true accM ij (F ij)).1 = max accM.1 (F ij) :=
      mmStep_fst_max _ _ _
    by_cases hbig : be ≤ (mmStep true accA ij (G ij al be)).1
    · rw [if_pos hbig]
      have hwmax : max accA.1 (G ij al be) = G ij al be := by
        rcases max_cases accA.1 (G ij al be) with ⟨h1, _⟩ | ⟨h1, _⟩
        · exfalso
          rw [hA1, h1] at hbig
          linarith
        · exact h1
      have hbew : be ≤ G ij al be := by
        rw [hA1, hwmax] at hbig
        exact hbig
      have hwF : G ij al be ≤ F ij := hchij.2.1 hbew
      have hm : F ij ≤ (searchFold F true rest (mmStep true accM ij (F ij))).1 := by
        refine le_trans ?_ (sf_mono_max rest (mmStep true accM ij (F ij)))
        rw [hM1]
        exact le_max_right _ _
      refine ⟨fun hle => ?_, fun _ => ?_, fun _ h2 => ?_⟩
      · exfalso
        rw [hA1, hwmax] at hle
        linarith
      · rw [hA1, hwmax]
        exact le_trans hwF hm
      · exfalso
        rw [hA1, hwmax] at h2
        linarith
    · rw [if_neg hbig]
      push_neg at hbig
      have hwbe : G ij al be < be := by
        refine lt_of_le_of_lt ?_ hbig
        rw [hA1]
        exact le_max_right _ _
      have hFvw : F ij ≤ max accA.1 (G ij al be) := by
        rcases le_or_lt (G ij al be) al with hwal | halw
        · exact le_trans (hchij.1 hwal) (le_max_right _ _)
        · rw [← hchij.2.2 halw hwbe]
          exact le_max_right _ _
      apply ih hchR
      · rw [ifMax, hA1, hal, max_assoc]
        congr 1
        rw [← max_assoc, max_self]
      · rw [hA1, hM1]
        apply max_le
        · exact le_trans hMA (le_max_left _ _)
        · exact hFvw
      · rw [hA1, hM1]
        apply max_le
        · exact le_trans hAM (max_le (le_max_left _ _)
            (le_trans (le_max_left _ _) (le_max_right _ _)))
        · rcases le_or_lt (G ij al be) al with hwal | halw
          · have h1 : G ij al be ≤ max al0 accA.1 := hal ▸ hwal
            have h2 : max al0 accA.1 ≤ max al0 accM.1 :=
              max_le (le_max_left _ _) hAM
            have h3 : max al0 accM.1 ≤ max al0 (max accM.1 (F ij)) :=
              max_le (le_max_left _ _)
                (le_trans (le_max_left _ _) (le_max_right _ _))
            exact le_trans (le_trans h1 h2) h3
          · rw [hchij.2.2 halw hwbe]
            exact le_trans (le_trans (le_max_right accM.1 _) (le_max_right al0 _)) (le_refl _)
      · exact hbig

/-- Mirror of `abLoopMax` for a minimizing node: `be0` is the beta the node
was called with; the loop runs with the current `be = min be0 (best so far)`. -/
theorem abLoopMin {F : ℕ × ℕ → ℚ} {G : ℕ × ℕ → ℚ → ℚ → ℚ} {al be0 : ℚ}
    (hbe0 : be0 ≤ 2) (halbe0 : al < be0) :
    ∀ l : List (ℕ × ℕ),
      (∀ ij ∈ l, ∀ b2 : ℚ, b2 ≤ 2 → al < b2 →
        (G ij al b2 ≤ al → F ij ≤ G ij al b2)
        ∧ (b2 ≤ G ij al b2 → G ij al b2 ≤ F ij)
        ∧ (al < G ij al b2 → G ij al b2 < b2 → G ij al b2 = F ij)) →
      ∀ (be : ℚ) (accA accM : ℚ × Option (ℕ × ℕ)),
        be = min be0 accA.1 → accA.1 ≤ accM.1 → min be0 accM.1 ≤ accA.1 → al < accA.1 →
        ((abFold G false l al be accA).1 ≤ al →
            (searchFold F false l accM).1 ≤ (abFold G false l al be accA).1)
        ∧ (be0 ≤ (abFold G false l al be accA).1 →
            (abFold G false l al be accA).1 ≤ (searchFold F false l accM).1)
        ∧ (al < (abFold G false l al be accA).1 → (abFold G false l al be accA).1 < be0 →
            (abFold G false l al be accA).1 = (searchFold F false l accM).1) := by
  intro l
  induction l with
  | nil =>
    intro _ be accA accM hbe hAM hMA halA
    simp only [abFold, searchFold]
    refine ⟨fun hle => absurd hle (not_le.2 halA), fun _ => hAM, fun _ h2 => ?_⟩
    rcases le_or_lt be0 accM.1 with h | h
    · exfalso
      have : be0 ≤ accA.1 := le_trans (le_of_eq (min_eq_left h).symm) hMA
      linarith
    · have : accM.1 ≤ accA.1 := le_trans (le_of_eq (min_eq_right h.le).symm) hMA
      exact le_antisymm hAM this
  | cons ij rest ih =>
    intro hch be accA accM hbe hAM hMA halA
    have hbe2 : be ≤ 2 := by
      rw [hbe]
      exact le_trans (min_le_left _ _) hbe0
    have halbe : al < be := by
      rw [hbe]
      exact lt_min halbe0 halA
    have hchij := hch ij (by simp) be hbe2 halbe
    have hchR : ∀ x ∈ rest, ∀ b2 : ℚ, b2 ≤ 2 → al < b2 →
        (G x al b2 ≤ al → F x ≤ G x al b2)
        ∧ (b2 ≤ G x al b2 → G x al b2 ≤ F x)
        ∧ (al < G x al b2 → G x al b2 < b2 → G x al b2 = F x) :=
      fun x hx => hch x (by simp [hx])
    rw [abFold_cons_min, searchFold]
    have hA1 : (mmStep false accA ij (G ij al be)).1 = min accA.1 (G ij al be) :=
      mmStep_fst_min _ _ _
    have hM1 : (mmStep false accM ij (F ij)).1 = min accM.1 (F ij) :=
      mmStep_fst_min _ _ _
    by_cases hsmall : (mmStep false accA ij (G ij al be)).1 ≤ al
    · rw [if_pos hsmall]
      have hwmin : min accA.1 (G ij al be) = G ij al be := by
        rcases min_cases accA.1 (G ij al be) with ⟨h1, _⟩ | ⟨h1, _⟩
        · exfalso
          rw [hA1, h1] at hsmall
          linarith
        · exact h1
      have hwal : G ij al be ≤ al := by
        rw [hA1, hwmin] at hsmall
        exact hsmall
      have hFw : F ij ≤ G ij al be := hchij.1 hwal
      have hm : (searchFold F false rest (mmStep false accM ij (F ij))).1 ≤ F ij := by
        refine le_trans (sf_mono_min rest (mmStep false accM ij (F ij))) ?_
        rw [hM1]
        exact min_le_right _ _
      refine ⟨fun _ => ?_, fun hge => ?_, fun h1 _ => ?_⟩
      · rw [hA1, hwmin]
        exact le_trans hm hFw
      · exfalso
        rw [hA1, hwmin] at hge
        linarith
      · exfalso
        rw [hA1, hwmin] at h1
        linarith
    · rw [if_neg hsmall]
      push_neg at hsmall
      have halw : al < G ij al be := by
        refine lt_of_lt_of_le hsmall ?_
        rw [hA1]
        exact min_le_right _ _
      have hFvw : min accA.1 (G ij al be) ≤ F ij := by
        rcases le_or_lt be (G ij al be) with hbew | hwbe
        · exact le_trans (min_le_right _ _) (hchij.2.1 hbew)
        · rw [← hchij.2.2 halw hwbe]
          exact min_le_right _ _
      apply ih hchR
      · rw [ifMin, hA1, hbe, min_assoc]
        congr 1
        rw [← min_assoc, min_self]
      · rw [hA1, hM1]
        apply le_min
        · exact le_trans (min_le_left _ _) hAM
        · exact hFvw
      · rw [hA1, hM1]
        apply le_min
        · refine le_trans (min_le_min (le_refl be0)
            (le_trans (min_le_left _ _) (le_refl _))) ?_
          exact hMA
        · rcases le_or_lt be (G ij al be) with hbew | hwbe
          · have h1 : min be0 (min accM.1 (F ij)) ≤ min be0 accA.1 := by
              apply le_min (min_le_left _ _)
              exact le_trans (min_le_min (le_refl be0)
                (min_le_left _ _)) hMA
            exact le_trans h1 (le_trans (le_of_eq hbe.symm) hbew)
          · rw [hchij.2.2 halw hwbe]
            exact le_trans (min_le_right be0 _) (min_le_right accM.1 _)
      · exact hsmall

/-- Fail-soft alpha-beta against minimax at every node: called with any
window `-2 ≤ al < be ≤ 2`, a result at most `al` upper-bounds the minimax
value, a result at least `be` lower-bounds it, and a result strictly inside
the window equals it.  (The heuristic is arbitrary but shared, as in the
source where both searches call the same `self.eval`.) -/
theorem alphabeta_vs_minimax (hev : Heur) (g : GP) :
    ∀ (d : ℕ) (b : Board) (maxer : Bool) (al be : ℚ), -2 ≤ al → be ≤ 2 → al < be →
      ((alphabeta hev g d b al be maxer).1 ≤ al →
          (minimax hev g d b maxer).1 ≤ (alphabeta hev g d b al be maxer).1)
      ∧ (be ≤ (alphabeta hev g d b al be maxer).1 →
          (alphabeta hev g d b al be maxer).1 ≤ (minimax hev g d b maxer).1)
      ∧ (al < (alphabeta hev g d b al be maxer).1 →
          (alphabeta hev g d b al be maxer).1 < be →
          (alphabeta hev g d b al be maxer).1 = (minimax hev g d b maxer).1) := by
  intro d
  induction d with
  | zero =>
    intro b maxer al be _ _ _
    have heq : (alphabeta hev g 0 b al be maxer).1 = (minimax hev g 0 b maxer).1 := by
      rw [alphabeta, minimax]
    exact ⟨fun _ => heq.ge, fun _ => heq.le, fun _ _ => heq⟩
  | succ k ih =>
    intro b maxer al be hal hbe halbe
    cases hend : isEnd g b with
    | some r =>
      have heq : (alphabeta hev g (k + 1) b al be maxer).1
          = (minimax hev g (k + 1) b maxer).1 := by
        rw [alphabeta_end hend, minimax_end hend]
      exact ⟨fun _ => heq.ge, fun _ => heq.le, fun _ _ => heq⟩
    | none =>
      rw [alphabeta_succ_none hend, minimax_succ_none hend]
      cases maxer with
      | true =>
        apply abLoopMax hal halbe (avail g b)
          (fun ij _ a2 ha2 ha2be => ih _ (!true) a2 be ha2 hbe ha2be)
        · show al = max al (initVal true)
          rw [initVal]
          exact (max_eq_left (by norm_num ; linarith)).symm
        · exact le_refl _
        · show (initVal true) ≤ max al (initVal true)
          exact le_max_right _ _
        · show (initVal true) < be
          rw [initVal]
          norm_num
          linarith
      | false =>
        apply abLoopMin hbe halbe (avail g b)
          (fun ij _ b2 hb2 halb2 => ih _ (!false) al b2 hal hb2 halb2)
        · show be = min be (initVal false)
          rw [initVal]
          exact (min_eq_left (by norm_num ; linarith)).symm
        · exact le_refl _
        · show min be (initVal false) ≤ (initVal false)
          exact min_le_right _ _
        · show al < (initVal false)
          rw [initVal]
          norm_num
          linarith

theorem countEmpty_le (g : GP) (b : Board) : countEmpty g b ≤ g.n * g.n := by
  unfold countEmpty avail
  rw [lengthFlatMapSum]
  have h := List.sum_le_card_nsmul
    ((List.range g.n).map fun i =>
      ((List.range g.n).filterMap fun j =>
        if cell b i j = Cell.E then some (i, j) else none).length)
    g.n ?_
  · rw [List.length_map, List.length_range, smul_eq_mul] at h
    exact h
  · intro x hx
    rcases List.mem_map.1 hx with ⟨i, _, hix⟩
    subst hix
    exact le_trans (List.length_filterMap_le _ _) (by rw [List.length_range])

theorem reachable_WF {b : Board} {t : Bool} (h : Reachable b t) : WF g3 b := by
  induction h with
  | start =>
    constructor
    · decide
    · intro row hrow
      simp only [empty3, List.mem_replicate] at hrow
      rw [hrow.2]
      decide
  | stepX _ _ _ _ _ ih => exact WF_setCell _ _ _ ih
  | stepO _ _ _ _ _ ih => exact WF_setCell _ _ _ ih

/-- At full depth the two searches agree with the default window. -/
theorem ab_eq_mm_fullDepth (hev : Heur) (g : GP) (d : ℕ) (b : Board) (maxer : Bool)
    (hwf : WF g b) (hd : countEmpty g b < d) :
    (alphabeta hev g d b (-2) 2 maxer).1 = (minimax hev g d b maxer).1 := by
  have hP := alphabeta_vs_minimax hev g d b maxer (-2) 2 (le_refl _) (le_refl _)
    (by norm_num)
  have hIcc := alphabeta_fullDepth_Icc hev g d b (-2) 2 maxer hwf hd
  exact hP.2.2 (by linarith [hIcc.1]) (by linarith [hIcc.2])

/-- C1: on every reachable position of the 3x3, winLength 3, no-blocks game,
`minimax` and `alphabeta` — called with the same board, the same maximizing
flag, the default window alpha = -2, beta = 2, full depth (10 > 9 ≥ number of
empty cells, so the depth cutoff never fires) and no time cutoff — return the
same score, for any heuristic (the heuristic is never consulted at full
depth).  The chosen moves may differ under tie-breaks; only the scores are
compared. -/
theorem c1_minimax_alphabeta_same_score (b : Board) (t : Bool) (h : Reachable b t)
    (maxer : Bool) (hev : Heur) :
    (alphabeta hev g3 10 b (-2) 2 maxer).1 = (minimax hev g3 10 b maxer).1 := by
  apply ab_eq_mm_fullDepth hev g3 10 b maxer (reachable_WF h)
  have := countEmpty_le g3 b
  have h9 : g3.n * g3.n = 9 := by decide
  omega

/-- Witness for C1: the empty board (reachable by construction), X to move. -/
theorem c1_witness :
    (alphabeta hev0 g3 10 empty3 (-2) 2 false).1 = (minimax hev0 g3 10 empty3 false).1 :=
  c1_minimax_alphabeta_same_score empty3 false Reachable.start false hev0

/-! ### C8 / C10: configuration validation -/

/-- C8 counterexample: the spec says validation raises for a win length
outside [3, size]; the code's `validate` only checks `s > n`, so the
spec-invalid configuration n = 5, s = 2 (win length below 3) raises nothing. -/
theorem c8_counterexample : (validate 5 0 [] 2).1 = none ∧ (2 : ℕ) < 3 :=
  ⟨by decide, by decide⟩

/-- C8 amended: `validate` raises an error if and only if the board size is
outside [3, 10], the actual supplied blocked-cell count exceeds `2 * n`, or
the win length exceeds `n` (the code never checks `s < 3`; the declared count
plays no role, cf. C10). -/
theorem c8_validate_iff (n bDeclared s : ℕ) (blocs : List (ℕ × ℕ)) :
    (validate n bDeclared blocs s).1 = none ↔
      3 ≤ n ∧ n ≤ 10 ∧ blocs.length ≤ 2 * n ∧ s ≤ n := by
  simp only [validate]
  split_ifs with h1 h2 h3 h4 h5 h6 <;> simp_all <;> omega

/-- C10: when the declared blocked-cell count disagrees with the supplied
list, `validate` raises nothing and silently replaces the declared count with
the actual one before applying the `2 * n` limit: any declared count — even
one above `2 * n` — is accepted whenever the supplied list itself is within
limits. -/
theorem c10_declared_count_overwritten (n bDeclared s : ℕ) (blocs : List (ℕ × ℕ))
    (hn3 : 3 ≤ n) (hn10 : n ≤ 10) (hlen : blocs.length ≤ 2 * n) (hs : s ≤ n) :
    (validate n bDeclared blocs s).1 = none
    ∧ (validate n bDeclared blocs s).2 = blocs.length := by
  simp only [validate]
  have h1 : ¬(10 < n ∨ n < 3) := by omega
  by_cases hb : bDeclared ≠ blocs.length
  · have h2 : ¬(2 * n < blocs.length) := by omega
    have h3 : ¬(n < s) := by omega
    simp [h1, hb, h2, h3]
  · push_neg at hb
    have h2 : ¬(2 * n < blocs.length) := by omega
    have h3 : ¬(n < s) := by omega
    simp [h1, hb, h2, h3]

/-! ### C6: memoization-transparent terminal detection -/

/-- The cache invariant: every stored verdict is the fresh-scan verdict of its
key. -/
def CacheOK (g : GP) (cache : List (Board × Option Outcome)) : Prop :=
  ∀ kv ∈ cache, kv.2 = isEnd g kv.1

theorem cacheLookup_mem {b : Board} {v : Option Outcome} :
    ∀ cache : List (Board × Option Outcome), cacheLookup b cache = some v →
      (b, v) ∈ cache := by
  intro cache
  induction cache with
  | nil => intro h; simp [cacheLookup] at h
  | cons kv rest ih =>
    intro h
    rw [cacheLookup] at h
    by_cases hk : kv.1 = b
    · rw [if_pos hk] at h
      obtain ⟨k1, k2⟩ := kv
      simp only [Option.some.injEq] at h
      simp only at hk
      rw [← hk, ← h]
      exact List.mem_cons_self _ _
    · rw [if_neg hk] at h
      exact List.mem_cons_of_mem _ (ih h)

/-- C6: `is_end` is memoization-transparent and its cache is append-only — if
every cache entry equals the fresh-scan verdict of its key, then (hit or miss)
the returned verdict is exactly the fresh-scan verdict of the board, the
updated cache satisfies the same invariant, and every previously stored entry
is still looked up unchanged (entries are never changed or removed). -/
theorem c6_cache_transparent (g : GP) (cache : List (Board × Option Outcome))
    (b : Board) (hok : CacheOK g cache) :
    (isEndCached g cache b).1 = isEnd g b
    ∧ CacheOK g (isEndCached g cache b).2
    ∧ ∀ (k : Board) (v : Option Outcome), cacheLookup k cache = some v →
        cacheLookup k (isEndCached g cache b).2 = some v := by
  unfold isEndCached
  cases hl : cacheLookup b cache with
  | some r =>
    refine ⟨?_, hok, fun k v hv => hv⟩
    have := hok _ (cacheLookup_mem cache hl)
    simpa using this
  | none =>
    refine ⟨rfl, ?_, ?_⟩
    · intro kv hkv
      rcases List.mem_cons.1 hkv with h | h
      · rw [h]
      · exact hok _ h
    · intro k v hv
      rw [cacheLookup]
      have hbk : b ≠ k := by
        intro h
        rw [← h, hl] at hv
        exact Option.noConfusion hv
      rw [if_neg hbk]
      exact hv

/-- Witness for C6: the empty cache (trivially correct) and the empty 3x3
board. -/
theorem c6_witness :
    (isEndCached g3 [] empty3).1 = isEnd g3 empty3
    ∧ CacheOK g3 (isEndCached g3 [] empty3).2 :=
  ⟨(c6_cache_transparent g3 [] empty3 (by intro kv h; simp at h)).1,
   (c6_cache_transparent g3 [] empty3 (by intro kv h; simp at h)).2.1⟩

/-! ### C3: behaviour after the wall-clock deadline is crossed -/

/-- C3 counterexample: the claim says no further sibling child is explored
once the deadline is crossed.  On the empty 3x3 board at depth 2 with the
deadline crossed at the second call (`tuAt2 1 = false`, `tuAt2 2 = true` —
i.e. while the root's first child is being searched), the root nevertheless
goes on to call the search on all eight remaining sibling children: 10 calls
are made in total, not 2.  The out-of-time condition never propagates; each
post-deadline call merely returns a heuristic value. -/
theorem c3_counterexample :
    (minimaxT tuAt2 hev0 g3 2 empty3 false 0).2 = 10
    ∧ tuAt2 1 = false ∧ tuAt2 2 = true := by
  refine ⟨by decide, by decide, by decide⟩

/-- C3 amended: once the deadline has been crossed, every search call entered
afterwards returns immediately — a terminal or heuristic value, with no child
explored (its call count is exactly 1) — but sibling iteration in loops
already in progress continues to completion (graceful degradation rather than
fail-fast propagation). -/
theorem c3_no_deepening_after_deadline (tu : ℕ → Bool) (hev : Heur) (g : GP)
    (d : ℕ) (b : Board) (maxer : Bool) (clock : ℕ) (h : tu (clock + 1) = true) :
    (minimaxT tu hev g d b maxer clock).2 = clock + 1 := by
  cases d with
  | zero =>
    rw [minimaxT]
    cases isEnd g b <;> rfl
  | succ k =>
    rw [minimaxT]
    cases isEnd g b with
    | some r => rfl
    | none => simp [h]

/-- Witness for C3's amended theorem: deadline already crossed at call 1 on
the empty 3x3 board. -/
theorem c3_witness :
    (minimaxT (fun _ => true) hev0 g3 5 empty3 false 0).2 = 0 + 1 :=
  c3_no_deepening_after_deadline (fun _ => true) hev0 g3 5 empty3 false 0 rfl

/-- Witness for C10: board size 3, declared count 100 (far beyond `2*n = 6`),
an empty supplied list — accepted, with the count overwritten to 0. -/
theorem c10_witness :
    (validate 3 100 ([] : List (ℕ × ℕ)) 3).1 = none
    ∧ (validate 3 100 ([] : List (ℕ × ℕ)) 3).2 = 0 :=
  c10_declared_count_overwritten 3 100 3 [] (by decide) (by decide) (by decide) (by decide)

end LineEmUp
